import Mathlib

set_option maxHeartbeats 1000000

/-!
# Verification of the Miami-Dade mortgage/assessment join pipeline

Shallow embedding of `miami_dade_etl.py`.  Strings are modelled as `List Char`
(`String` at the interface), Python `dict`s as association lists with
overwrite-on-insert semantics, and fallible code (Python exceptions) as
`Except`.  Character-level operations (`str.upper`, `str.strip`, `\s`, `\w`)
are modelled over the ASCII range, which is the range exercised by the data
the program processes.
-/

/-! ## Character classes (ASCII model of the predicates used by the script) -/

/-- ASCII uppercase letter, the class `A-Z` of the script's regexes. -/
def isUpperChar (c : Char) : Bool := 65 ≤ c.toNat && c.toNat ≤ 90

/-- ASCII lowercase letter. -/
def isLowerChar (c : Char) : Bool := 97 ≤ c.toNat && c.toNat ≤ 122

/-- ASCII digit, the class `0-9`. -/
def isDigitChar (c : Char) : Bool := 48 ≤ c.toNat && c.toNat ≤ 57

/-- Python regex `\s` (ASCII part): space, tab, newline, vertical tab, form feed, carriage return. -/
def isSpaceChar (c : Char) : Bool :=
  c.toNat = 32 || c.toNat = 9 || c.toNat = 10 || c.toNat = 11 || c.toNat = 12 || c.toNat = 13

/-- Python regex `\w` (ASCII part), used by the `\b` word-boundary assertion. -/
def isWordChar (c : Char) : Bool :=
  isUpperChar c || isLowerChar c || isDigitChar c || c.toNat = 95

/-- The character class `[A-Z0-9-]` of the unit capture group `UNIT_PAT`. -/
def isUnitValChar (c : Char) : Bool := isUpperChar c || isDigitChar c || c.toNat = 45

/-- Python `str.upper` on one character (ASCII model). -/
def pyUpperChar (c : Char) : Char :=
  if isLowerChar c then Char.ofNat (c.toNat - 32) else c

/-- Python `str.lower` on one character (ASCII model). -/
def pyLowerChar (c : Char) : Char :=
  if isUpperChar c then Char.ofNat (c.toNat + 32) else c

/-- Python `str.strip` : drop leading and trailing whitespace. -/
def pyStrip (l : List Char) : List Char :=
  ((l.dropWhile isSpaceChar).reverse.dropWhile isSpaceChar).reverse

/-- Python `str.strip` at `String` type. -/
def pyStripS (s : String) : String := String.mk (pyStrip s.data)

/-- Python `str.upper` at `String` type. -/
def pyUpper (s : String) : String := String.mk (s.data.map pyUpperChar)

/-- Python `str.lower` at `String` type. -/
def pyLower (s : String) : String := String.mk (s.data.map pyLowerChar)

/-- Python `a or b` for strings: `b` if `a` is empty (falsy), else `a`. -/
def pyOr (a b : String) : String := if a = "" then b else a

/-! ## `normalize_address`

The script computes
```
a = addr.upper().strip().replace("#", " UNIT ")
unit = (UNIT_PAT.search(a) or "").group(1)        -- first match's capture
a = UNIT_PAT.sub("", a)                            -- remove all matches
a = re.sub(r"[^A-Z0-9\s]", " ", a)
parts = [p for p in SPACE_PAT.sub(" ", a).strip().split(" ") if p]
...
```
with `UNIT_PAT = \b(?:APT|UNIT|STE|SUITE|#)\s*([A-Z0-9-]+)\b`.  The regex is
modelled exactly: leftmost match, alternatives in order (at most one keyword
can be a prefix at a given position, so alternation never backtracks), greedy
`\s*` (backtracking it can never help because whitespace is disjoint from the
capture class), and a greedy `[A-Z0-9-]+` whose final `\b` is satisfied by
backtracking from the longest run (`endBacktrack`). -/

/-- Python `.replace("#", " UNIT ")`. -/
def replaceHash : List Char → List Char
  | [] => []
  | c :: rest =>
    if c = '#' then ' ' :: 'U' :: 'N' :: 'I' :: 'T' :: ' ' :: replaceHash rest
    else c :: replaceHash rest

/-- The alternation `(?:APT|UNIT|STE|SUITE|#)`, in the pattern's order. -/
def unitKeywords : List (List Char) :=
  [['A', 'P', 'T'], ['U', 'N', 'I', 'T'], ['S', 'T', 'E'],
   ['S', 'U', 'I', 'T', 'E'], ['#']]

/-- Word-ness of an optional character; the absent character (string edge) is non-word. -/
def isWordCharO : Option Char → Bool
  | none => false
  | some c => isWordChar c

/-- The `\b` assertion between an adjacent pair of (possibly absent) characters. -/
def boundaryB (a b : Option Char) : Bool := Bool.xor (isWordCharO a) (isWordCharO b)

/-- First keyword of the alternation that is a prefix of `l` (no two keywords can
be prefixes of the same string), with the remainder after it. -/
def matchKeyword (l : List Char) : Option (List Char × List Char) :=
  unitKeywords.findSome? (fun kw =>
    if kw.isPrefixOf l then some (kw, l.drop kw.length) else none)

/-- Backtracking search for the end of the greedy `[A-Z0-9-]+\b`: the largest
`m ∈ [1, run.length]` such that `\b` holds between `run[m-1]` and the character
after the first `m` run characters (`next1` past the end of the run). -/
def btk (run : List Char) (next1 : Option Char) : Nat → Option Nat
  | 0 => none
  | k + 1 =>
    let nextC : Option Char := if k + 1 = run.length then next1 else run.get? (k + 1)
    if boundaryB (run.get? k) nextC then some (k + 1) else btk run next1 k

/-- End position of `[A-Z0-9-]+\b` given the maximal class run and the character after it. -/
def endBacktrack (run : List Char) (next1 : Option Char) : Option Nat :=
  btk run next1 run.length

/-- Attempt to match `UNIT_PAT` anchored at the start of `l`, where `prev` is the
character just before `l` in the searched string.  Returns the capture and the
number of characters consumed. -/
def tryMatchAt (prev : Option Char) (l : List Char) : Option (List Char × Nat) :=
  match matchKeyword l with
  | none => none
  | some (kw, rest) =>
    if boundaryB prev l.head? then
      let spaces := rest.takeWhile isSpaceChar
      let r2 := rest.dropWhile isSpaceChar
      let run := r2.takeWhile isUnitValChar
      let r3 := r2.dropWhile isUnitValChar
      match endBacktrack run r3.head? with
      | none => none
      | some m => some (run.take m, kw.length + spaces.length + m)
    else none

/-- Model of `UNIT_PAT.search`: capture group of the leftmost match. -/
def unitSearch (prev : Option Char) : List Char → Option (List Char)
  | [] => none
  | c :: rest =>
    match tryMatchAt prev (c :: rest) with
    | some (cap, _) => some cap
    | none => unitSearch (some c) rest

/-- Model of `UNIT_PAT.sub("", ·)`, fuelled so that the recursion is structural (a match
always consumes at least one character, so `l.length` fuel suffices).
The `\b` context after a removed match is the last character of the match in the
original string, hence the `get?` for the new `prev`. -/
def unitScanSubF (prev : Option Char) (l : List Char) : Nat → List Char
  | 0 => l
  | fuel + 1 =>
    match l with
    | [] => []
    | c :: rest =>
      match tryMatchAt prev (c :: rest) with
      | some (_, n) => unitScanSubF ((c :: rest).get? (n - 1)) (rest.drop (n - 1)) fuel
      | none => c :: unitScanSubF (some c) rest fuel

/-- Model of `UNIT_PAT.sub("", ·)`: remove every (non-overlapping, left-to-right) match. -/
def unitScanSub (prev : Option Char) (l : List Char) : List Char :=
  unitScanSubF prev l l.length

/-- Python `re.sub(r"[^A-Z0-9\s]", " ", ·)` on one character. -/
def scrubChar (c : Char) : Char :=
  if isUpperChar c || isDigitChar c || isSpaceChar c then c else ' '

theorem length_dropWhile_le (p : Char → Bool) (l : List Char) :
    (l.dropWhile p).length ≤ l.length := by
  induction l with
  | nil => simp [List.dropWhile]
  | cons c rest ih =>
    by_cases h : p c
    · simp only [List.dropWhile_cons_of_pos h, List.length_cons]; omega
    · simp [List.dropWhile_cons_of_neg h]

/-- Model of `[p for p in SPACE_PAT.sub(" ", a).strip().split(" ") if p]`: the maximal
runs of non-whitespace characters (collapsing, stripping, splitting on a single
space and dropping empties is exactly this). -/
def splitTokensF (l : List Char) : Nat → List (List Char)
  | 0 => []
  | fuel + 1 =>
    match l with
    | [] => []
    | c :: rest =>
      if isSpaceChar c then splitTokensF rest fuel
      else (c :: rest.takeWhile (fun d => !isSpaceChar d)) ::
        splitTokensF (rest.dropWhile (fun d => !isSpaceChar d)) fuel

/-- Tokenisation, with `l.length` fuel (each step strictly shortens the list). -/
def splitTokens (l : List Char) : List (List Char) :=
  splitTokensF l l.length

/-- Python `" ".join`. -/
def joinSp : List (List Char) → List Char
  | [] => []
  | [t] => t
  | t :: ts => t ++ ' ' :: joinSp ts

/-- The street-suffix dictionary `SUFFIX_MAP` of the script. -/
def SUFFIX_MAP : List (String × String) :=
  [("STREET", "ST"), ("ST", "ST"), ("ROAD", "RD"), ("RD", "RD"),
   ("AVENUE", "AVE"), ("AVE", "AVE"), ("BOULEVARD", "BLVD"), ("BLVD", "BLVD"),
   ("DRIVE", "DR"), ("DR", "DR"), ("LANE", "LN"), ("LN", "LN"),
   ("COURT", "CT"), ("CT", "CT"), ("PLACE", "PL"), ("PL", "PL"),
   ("TERRACE", "TER"), ("TER", "TER"), ("CIRCLE", "CIR"), ("CIR", "CIR")]

/-- Python `SUFFIX_MAP.get(p, p)`. -/
def suffixApplyL (p : List Char) : List Char :=
  match SUFFIX_MAP.find? (fun kv => kv.1.data == p) with
  | some kv => kv.2.data
  | none => p

/-- The token `f"UNIT {unit}"` appended when a unit value was captured. -/
def unitTok (u : List Char) : List Char := 'U' :: 'N' :: 'I' :: 'T' :: ' ' :: u

/-- Python `addr.upper().strip().replace("#", " UNIT ")`. -/
def normPre (l : List Char) : List Char := replaceHash (pyStrip (l.map pyUpperChar))

/-- The token list of `normalize_address` before suffix mapping. -/
def normParts (l : List Char) : List (List Char) :=
  splitTokens ((unitScanSub none (normPre l)).map scrubChar)

/-- The captured unit value (empty list when `UNIT_PAT.search` found nothing). -/
def normUnitVal (l : List Char) : List Char := (unitSearch none (normPre l)).getD []

/-- Model of `normalize_address` at `List Char` type.  An empty token list returns `[]`
before the unit value is appended, exactly as the script's early `return ""`. -/
def normCore (l : List Char) : List Char :=
  if normParts l = [] then []
  else
    joinSp ((normParts l).map suffixApplyL ++
      (if normUnitVal l = [] then [] else [unitTok (normUnitVal l)]))

/-- Model of `normalize_address` of the script. -/
def normalize_address (addr : String) : String := String.mk (normCore addr.data)

/-! ## `parse_date`

Python `datetime.strptime` with the four formats of the script.  `%Y` matches
exactly four digits; `%m` matches `1[0-2]|0[1-9]|[1-9]` and `%d` matches
`3[01]|[12]\d|0[1-9]|[1-9]`, alternatives tried in that order with full
backtracking into the remainder of the format (modelled by `findSome?` over the
candidate list); the whole string must be consumed, and the matched numbers
must form a valid `datetime.date` (otherwise `ValueError`, i.e. the next
format is tried). -/

def digitVal (c : Char) : Nat := c.toNat - 48

/-- The alternatives of strptime's `%m` regex, in order, each with the rest of the input. -/
def mCands (l : List Char) : List (Nat × List Char) :=
  (match l with
   | c1 :: c2 :: r =>
     if c1 = '1' && (c2 = '0' || c2 = '1' || c2 = '2') then [(10 + digitVal c2, r)] else []
   | _ => []) ++
  (match l with
   | c1 :: c2 :: r =>
     if c1 = '0' && isDigitChar c2 && !(c2 = '0') then [(digitVal c2, r)] else []
   | _ => []) ++
  (match l with
   | c1 :: r => if isDigitChar c1 && !(c1 = '0') then [(digitVal c1, r)] else []
   | _ => [])

/-- The alternatives of strptime's `%d` regex, in order. -/
def dCands (l : List Char) : List (Nat × List Char) :=
  (match l with
   | c1 :: c2 :: r =>
     if c1 = '3' && (c2 = '0' || c2 = '1') then [(30 + digitVal c2, r)] else []
   | _ => []) ++
  (match l with
   | c1 :: c2 :: r =>
     if (c1 = '1' || c1 = '2') && isDigitChar c2 then [(10 * digitVal c1 + digitVal c2, r)] else []
   | _ => []) ++
  (match l with
   | c1 :: c2 :: r =>
     if c1 = '0' && isDigitChar c2 && !(c2 = '0') then [(digitVal c2, r)] else []
   | _ => []) ++
  (match l with
   | c1 :: r => if isDigitChar c1 && !(c1 = '0') then [(digitVal c1, r)] else []
   | _ => [])

/-- strptime's `%Y`: exactly four digits. -/
def yParse (l : List Char) : Option (Nat × List Char) :=
  match l with
  | a :: b :: c :: d :: r =>
    if isDigitChar a && isDigitChar b && isDigitChar c && isDigitChar d then
      some (1000 * digitVal a + 100 * digitVal b + 10 * digitVal c + digitVal d, r)
    else none
  | _ => none

/-- A literal character of the format string. -/
def litP (c : Char) (l : List Char) : Option (List Char) :=
  match l with
  | x :: r => if x = c then some r else none
  | [] => none

/-- Format `%Y<sep>%m<sep>%d`, entire input consumed. -/
def runYmd (sep : Char) (l : List Char) : Option (Nat × Nat × Nat) :=
  (yParse l).bind fun yr =>
    (litP sep yr.2).bind fun r2 =>
      (mCands r2).findSome? fun mr =>
        (litP sep mr.2).bind fun r4 =>
          (dCands r4).findSome? fun dr =>
            if dr.2 = [] then some (yr.1, mr.1, dr.1) else none

/-- Format `%m<sep>%d<sep>%Y`, entire input consumed. -/
def runMdy (sep : Char) (l : List Char) : Option (Nat × Nat × Nat) :=
  (mCands l).findSome? fun mr =>
    (litP sep mr.2).bind fun r2 =>
      (dCands r2).findSome? fun dr =>
        (litP sep dr.2).bind fun r4 =>
          (yParse r4).bind fun yr =>
            if yr.2 = [] then some (yr.1, mr.1, dr.1) else none

/-- Python `datetime.date`: year, month, day. -/
structure PyDate where
  year : Nat
  month : Nat
  day : Nat
deriving DecidableEq, Repr

/-- Gregorian leap-year rule used by `datetime`. -/
def isLeapYear (y : Nat) : Bool := y % 4 == 0 && (y % 100 != 0 || y % 400 == 0)

/-- Days in a month per `datetime` (0 for an invalid month index). -/
def daysInMonth (y m : Nat) : Nat :=
  if m = 1 || m = 3 || m = 5 || m = 7 || m = 8 || m = 10 || m = 12 then 31
  else if m = 4 || m = 6 || m = 9 || m = 11 then 30
  else if m = 2 then (if isLeapYear y then 29 else 28)
  else 0

/-- The `datetime.date` constructor's validity check (`ValueError` otherwise). -/
def dateValid (y m d : Nat) : Bool :=
  decide (1 ≤ y) && decide (y ≤ 9999) && decide (1 ≤ m) && decide (m ≤ 12) &&
    decide (1 ≤ d) && decide (d ≤ daysInMonth y m)

/-- Model of `strptime(...).date()`: regex result to a date, `none` on `ValueError`. -/
def strptimeDate (r : Option (Nat × Nat × Nat)) : Option PyDate :=
  match r with
  | some (y, m, d) => if dateValid y m d then some ⟨y, m, d⟩ else none
  | none => none

/-- Model of `parse_date` of the script: empty check, strip, then the four formats
`%Y-%m-%d`, `%m/%d/%Y`, `%Y/%m/%d`, `%m-%d-%Y` in order. -/
def parse_date (value : String) : Option PyDate :=
  if value = "" then none
  else
    let v := pyStrip value.data
    match strptimeDate (runYmd '-' v) with
    | some d => some d
    | none =>
      match strptimeDate (runMdy '/' v) with
      | some d => some d
      | none =>
        match strptimeDate (runYmd '/' v) with
        | some d => some d
        | none => strptimeDate (runMdy '-' v)

/-! ## Date arithmetic

`datetime.date` objects compare by `(year, month, day)`; for valid dates this
is the order of their proleptic-Gregorian ordinals (`date.toordinal`), which is
how the comparison and the `timedelta` subtraction are modelled here.
`date.min.toordinal() = 1` and `date.max.toordinal() = 3652059`; a subtraction
leaving that range raises `OverflowError`. -/

/-- Days in the months of `y` strictly before month `m`. -/
def daysBeforeMonth (y m : Nat) : Nat :=
  (List.range (m - 1)).foldl (fun a i => a + daysInMonth y (i + 1)) 0

/-- Python `date.toordinal()`: day number with `0001-01-01 = 1`. -/
def dateOrdinal (d : PyDate) : Int :=
  let y : Int := (d.year : Int) - 1
  365 * y + y / 4 - y / 100 + y / 400 + (daysBeforeMonth d.year d.month : Int) + (d.day : Int)

/-- Model of `cutoff = dt.date.today() - dt.timedelta(days=365 * years)`, as an ordinal;
`OverflowError` when the result leaves `date`'s supported range. -/
def cutoffE (today : PyDate) (years : Int) : Except String Int :=
  let o := dateOrdinal today - 365 * years
  if 1 ≤ o ∧ o ≤ 3652059 then Except.ok o else Except.error "OverflowError"

/-- Zero-padded decimal rendering. -/
def padNat (w n : Nat) : String :=
  String.mk (List.replicate (w - (toString n).length) '0' ++ (toString n).data)

/-- Python `date.isoformat()`: `YYYY-MM-DD`. -/
def isoDate (d : PyDate) : String :=
  padNat 4 d.year ++ "-" ++ padNat 2 d.month ++ "-" ++ padNat 2 d.day

/-! ## Records and dictionaries -/

/-- A property-roll record as built by `load_properties`. -/
structure PropRec where
  address : String
  parcel_id : String
  assessed_value : String
  norm_address : String
deriving DecidableEq, Repr

/-- A mortgage record as built by `load_mortgages`. -/
structure MortRec where
  address : String
  parcel_id : String
  recording_date : String
  instrument_number : String
  book_page : String
deriving DecidableEq, Repr

/-- An output row of `join_records`. -/
structure JoinedRow where
  address : String
  parcel_id : String
  assessed_value : String
  mortgage_recorded_date : String
  book_page_or_instrument_number : String
deriving DecidableEq, Repr

/-- Python `d[k] = v`: overwrite in place, else append (last write wins). -/
def assocSet {κ α : Type} [DecidableEq κ] (k : κ) (v : α) : List (κ × α) → List (κ × α)
  | [] => [(k, v)]
  | kv :: rest => if kv.1 = k then (k, v) :: rest else kv :: assocSet k v rest

/-- Python `d.get(k)`. -/
def assocGet {κ α : Type} [DecidableEq κ] (d : List (κ × α)) (k : κ) : Option α :=
  match d.find? (fun kv => decide (kv.1 = k)) with
  | some kv => some kv.2
  | none => none

/-- The two property indexes `by_parcel` / `by_addr`. -/
abbrev PDict := List (String × PropRec)

/-! ## CSV rows as produced by `csv.DictReader`

A cell value can be a string, Python `None` (a data row shorter than the
header: `restval`), or the list of extras stored under the `None` key
(`restkey`, a data row longer than the header).  Keys can therefore be
`none` as well.  The reader itself is modelled for inputs without quoting
(quote/dialect mechanics are the out-of-scope CSV collaborator of the spec);
blank data rows are skipped, as `DictReader` does. -/

inductive CsvCell where
  | str (v : String)
  | null
  | extra (vs : List String)
deriving DecidableEq, Repr

/-- One row-dictionary of `csv.DictReader`. -/
abbrev RawRow := List (Option String × CsvCell)

/-- Python `str.split(sep)` for a one-character separator (empty pieces kept). -/
def splitOnChar (sep : Char) : List Char → List (List Char)
  | [] => [[]]
  | c :: rest =>
    match splitOnChar sep rest with
    | h :: t => if c = sep then [] :: h :: t else (c :: h) :: t
    | [] => [[]]

/-- Split the text into raw CSV rows (no quoting): lines, then comma fields. -/
def csvLines (t : String) : List (List String) :=
  if t = "" then []
  else (splitOnChar '\n' t.data).map (fun ln =>
    if ln = [] then [] else (splitOnChar ',' ln).map String.mk)

/-- Python `dict(zip(fieldnames, row))` plus the `restval`/`restkey` handling of `DictReader`. -/
def dictZip (fns : List String) (vals : List String) : RawRow :=
  let base := (List.zip fns vals).foldl
    (fun d kv => assocSet (some kv.1) (CsvCell.str kv.2) d) []
  if vals.length < fns.length then
    (fns.drop vals.length).foldl (fun d k => assocSet (some k) CsvCell.null d) base
  else if fns.length < vals.length then
    assocSet none (CsvCell.extra (vals.drop fns.length)) base
  else base

/-- Model of `csv.DictReader` over the whole text: first row is the header, blank data
rows are skipped, each remaining row is zipped against the header. -/
def dictReaderRows (t : String) : List RawRow :=
  match csvLines t with
  | [] => []
  | header :: rest => (rest.filter (fun r => !r.isEmpty)).map (dictZip header)

/-! ## `pick_col`

```
lowered = {k.lower().strip(): k for k in row}   -- AttributeError if a key is None
for cand in candidates:
    key = lowered.get(cand.lower())
    if key:
        return row.get(key, "").strip()          -- AttributeError if the value is None
return ""
```
-/

/-- Whether every key of the row is a string (a `None` key makes the
`k.lower()` in the dict comprehension raise `AttributeError`). -/
def rawKeysOk (row : RawRow) : Bool := row.all (fun kv => kv.1.isSome)

/-- The `lowered` dictionary: lowered-and-stripped field name to original name. -/
def buildLowered (row : RawRow) : List (String × String) :=
  row.foldl (fun d kv =>
    match kv.1 with
    | some k => assocSet (pyStripS (pyLower k)) k d
    | none => d) []

/-- Python `row.get(k)` on the raw row (string key). -/
def rawGet (row : RawRow) (k : String) : Option CsvCell :=
  match row.find? (fun kv => decide (kv.1 = some k)) with
  | some kv => some kv.2
  | none => none

/-- The candidate loop of `pick_col`. -/
def pickLoop (row : RawRow) (lowered : List (String × String)) :
    List String → Except String String
  | [] => Except.ok ""
  | cand :: rest =>
    match assocGet lowered (pyLower cand) with
    | some k =>
      if k = "" then pickLoop row lowered rest
      else
        match rawGet row k with
        | some (CsvCell.str v) => Except.ok (pyStripS v)
        | some _ => Except.error "AttributeError"
        | none => Except.ok ""
    | none => pickLoop row lowered rest

/-- Model of `pick_col` of the script; `Except.error` models an uncaught `AttributeError`. -/
def pick_col (row : RawRow) (candidates : List String) : Except String String :=
  if rawKeysOk row then pickLoop row (buildLowered row) candidates
  else Except.error "AttributeError"

/-! ## `load_properties` -/

def propParcelCands : List String := ["parcel_id", "folio", "folio_number", "parcel", "pin"]
def propAddrCands : List String := ["address", "site_address", "property_address", "situs_address"]
def propAssessedCands : List String := ["assessed_value", "assessed", "total_assessed_value", "market_value"]

/-- One property row to a `PropRec`. -/
def propRowE (row : RawRow) : Except String PropRec := do
  let parcel ← pick_col row propParcelCands
  let addr ← pick_col row propAddrCands
  let assessed ← pick_col row propAssessedCands
  pure ⟨addr, parcel, assessed, normalize_address addr⟩

/-- The row loop of `load_properties`, threading the two indexes. -/
def load_properties_rows : List RawRow → PDict × PDict → Except String (PDict × PDict)
  | [], acc => Except.ok acc
  | row :: rest, acc =>
    match propRowE row with
    | Except.error e => Except.error e
    | Except.ok r =>
      load_properties_rows rest
        (if r.parcel_id ≠ "" then assocSet r.parcel_id r acc.1 else acc.1,
         if r.norm_address ≠ "" then assocSet r.norm_address r acc.2 else acc.2)

/-- Model of `load_properties` of the script. -/
def load_properties (t : String) : Except String (PDict × PDict) :=
  load_properties_rows (dictReaderRows t) ([], [])

/-! ## `load_mortgages` -/

def mortDocCands : List String := ["doc_type", "document_type", "doctype", "doc type"]
def mortDateCands : List String := ["recording_date", "recorded_date", "record_date", "recording date"]
def mortAddrCands : List String := ["address", "property_address", "legal_address", "situs_address"]
def mortParcelCands : List String := ["parcel_id", "folio", "folio_number", "pin", "parcel"]
def mortInstrCands : List String := ["instrument_number", "instrument", "cfn", "doc_number"]
def mortBookCands : List String := ["book_page", "book/page", "book_page_ref"]

/-- One mortgage row: `none` when the row is filtered out (wrong doc type,
unparseable date, or date strictly before the cutoff ordinal). -/
def mortRowE (cutoff : Int) (row : RawRow) : Except String (Option MortRec) := do
  let doc ← pick_col row mortDocCands
  if pyUpper doc ≠ "MORTGAGE" then pure none
  else do
    let rdRaw ← pick_col row mortDateCands
    match parse_date rdRaw with
    | none => pure none
    | some rd =>
      if dateOrdinal rd < cutoff then pure none
      else do
        let addr ← pick_col row mortAddrCands
        let parcel ← pick_col row mortParcelCands
        let instr ← pick_col row mortInstrCands
        let bookp ← pick_col row mortBookCands
        pure (some ⟨addr, parcel, isoDate rd, instr, bookp⟩)

/-- The row loop of `load_mortgages`. -/
def load_mortgages_rows (cutoff : Int) : List RawRow → List MortRec → Except String (List MortRec)
  | [], acc => Except.ok acc
  | row :: rest, acc =>
    match mortRowE cutoff row with
    | Except.error e => Except.error e
    | Except.ok none => load_mortgages_rows cutoff rest acc
    | Except.ok (some m) => load_mortgages_rows cutoff rest (acc ++ [m])

/-- Model of `load_mortgages` of the script (the single `today` of `dt.date.today()`
and the `years` argument are parameters). -/
def load_mortgages (t : String) (years : Int) (today : PyDate) : Except String (List MortRec) :=
  match cutoffE today years with
  | Except.error e => Except.error e
  | Except.ok cutoff => load_mortgages_rows cutoff (dictReaderRows t) []

/-! ## `join_records` -/

/-- The per-mortgage body of `join_records`' loop. -/
def joinRow (by_parcel by_addr : PDict) (m : MortRec) : JoinedRow :=
  let prop0 : Option PropRec :=
    if m.parcel_id ≠ "" then assocGet by_parcel m.parcel_id else none
  let prop : Option PropRec :=
    match prop0 with
    | some p => some p
    | none => assocGet by_addr (normalize_address m.address)
  ⟨pyOr m.address (match prop with | some p => p.address | none => ""),
   pyOr m.parcel_id (match prop with | some p => p.parcel_id | none => ""),
   (match prop with | some p => p.assessed_value | none => ""),
   m.recording_date,
   pyOr m.book_page m.instrument_number⟩

/-- Model of `join_records` of the script: an append loop over the mortgage list. -/
def join_records (mortgages : List MortRec) (by_parcel by_addr : PDict) : List JoinedRow :=
  List.foldl (fun acc m => acc ++ [joinRow by_parcel by_addr m]) [] mortgages

/-- The processing done after both texts are retrieved: index build, mortgage
filter, join (`main` lines 172-174). -/
def pipeline (propText mtgText : String) (years : Int) (today : PyDate) :
    Except String (List JoinedRow) :=
  match load_properties propText with
  | Except.error e => Except.error e
  | Except.ok bpba =>
    match load_mortgages mtgText years today with
    | Except.error e => Except.error e
    | Except.ok ms => Except.ok (join_records ms bpba.1 bpba.2)

/-! ## Spec-side definitions

These follow the wording of the specification (sections 4.3 and 4.6), to be
compared with the definitions above, which follow the code. -/

/-- Spec-side 4.3: the fixed ordered list of format patterns — year-month-day
with hyphens, month/day/year with slashes, year/month/day with slashes,
month-day-year with hyphens. -/
def specDateFormats : List (List Char → Option PyDate) :=
  [fun v => strptimeDate (runYmd '-' v), fun v => strptimeDate (runMdy '/' v),
   fun v => strptimeDate (runYmd '/' v), fun v => strptimeDate (runMdy '-' v)]

/-- Spec-side 4.3: trim the input, return none for empty input, otherwise the
first successful strict parse from the ordered format list (none if no pattern
matches). -/
def specDateParse (value : String) : Option PyDate :=
  if value = "" then none
  else specDateFormats.findSome? (fun f => f (pyStrip value.data))

/-- Spec-side 4.6, resolution policy: (1) if the record's parcel id is
non-empty, look it up in `by_parcel`; (2) if no match yet, normalize the
mortgage's own address and look it up in `by_addr`; (3) otherwise unmatched. -/
def specResolve (by_parcel by_addr : PDict) (m : MortRec) : Option PropRec :=
  if m.parcel_id ≠ "" then
    match assocGet by_parcel m.parcel_id with
    | some p => some p
    | none => assocGet by_addr (normalize_address m.address)
  else assocGet by_addr (normalize_address m.address)

/-- Spec-side 4.6, output field derivation, given the resolved match. -/
def specDerive (m : MortRec) (matched : Option PropRec) : JoinedRow :=
  ⟨if m.address ≠ "" then m.address else Option.elim matched "" (fun p => p.address),
   if m.parcel_id ≠ "" then m.parcel_id else Option.elim matched "" (fun p => p.parcel_id),
   Option.elim matched "" (fun p => p.assessed_value),
   m.recording_date,
   if m.book_page ≠ "" then m.book_page else m.instrument_number⟩

/-- A row dictionary whose keys and values are all strings (what a non-ragged
CSV data row produces). -/
def cleanRow (row : RawRow) : Prop :=
  ∀ kv ∈ row, kv.1.isSome ∧ ∃ v, kv.2 = CsvCell.str v

/-- A CSV text is rectangular when every non-blank data row has exactly as many
fields as the header row. -/
def rectangularCsv (t : String) : Bool :=
  match csvLines t with
  | [] => true
  | header :: rest => rest.all (fun r => r.isEmpty || r.length == header.length)

/-! ## Claims about the joiner -/

theorem foldl_append_join (bp ba : PDict) (ms : List MortRec) (acc : List JoinedRow) :
    List.foldl (fun a m => a ++ [joinRow bp ba m]) acc ms = acc ++ ms.map (joinRow bp ba) := by
  induction ms generalizing acc with
  | nil => simp
  | cons m rest ih => simp [List.foldl, ih]

/-- C2: for every list of mortgage records and every pair of indexes, the
joiner produces exactly one output row per input mortgage record, in the same
order (the i-th output row is derived from the i-th input record), so it never
drops or duplicates rows, whether or not a property match was found. -/
theorem c2_join_row_count (mortgages : List MortRec) (by_parcel by_addr : PDict) :
    (join_records mortgages by_parcel by_addr).length = mortgages.length ∧
    ∀ i : Nat, (join_records mortgages by_parcel by_addr).get? i =
      (mortgages.get? i).map (joinRow by_parcel by_addr) := by
  have h : join_records mortgages by_parcel by_addr =
      mortgages.map (joinRow by_parcel by_addr) := by
    simpa using foldl_append_join by_parcel by_addr mortgages []
  exact ⟨by simp [h], fun i => by simp [h, List.get?_map]⟩

/-- C3: whenever a mortgage record's parcel id is non-empty and present in
`by_parcel`, the joined row's assessed value is the assessed value of the
property stored under that parcel id — whatever `by_addr` holds for the
mortgage's normalized address. -/
theorem c3_parcel_priority (by_parcel by_addr : PDict) (m : MortRec) (p : PropRec)
    (hne : m.parcel_id ≠ "") (hfind : assocGet by_parcel m.parcel_id = some p) :
    (joinRow by_parcel by_addr m).assessed_value = p.assessed_value := by
  simp [joinRow, hne, hfind]

theorem c3_parcel_priority_witness :
    (MortRec.mk "1 Main St" "001" "2024-03-01" "" "").parcel_id ≠ "" ∧
    (joinRow [("001", ⟨"123 Main Street", "001", "250000", "123 MAIN ST"⟩)]
        [("1 MAIN ST", ⟨"99 Other Rd", "999", "111111", "1 MAIN ST"⟩)]
        ⟨"1 Main St", "001", "2024-03-01", "", ""⟩).assessed_value = "250000" :=
  ⟨by decide,
   c3_parcel_priority
     [("001", ⟨"123 Main Street", "001", "250000", "123 MAIN ST"⟩)]
     [("1 MAIN ST", ⟨"99 Other Rd", "999", "111111", "1 MAIN ST"⟩)]
     ⟨"1 Main St", "001", "2024-03-01", "", ""⟩
     ⟨"123 Main Street", "001", "250000", "123 MAIN ST"⟩
     (by decide) (by decide)⟩

/-- C6: for every mortgage record and pair of indexes, the joined row's fields
are exactly the spec's derivations — address from the mortgage if non-empty
else the matched property else empty; parcel id from the mortgage if non-empty
else the matched property else empty; assessed value from the match else empty;
the mortgage's ISO date; book/page if non-empty else instrument number — where
the match is the spec's parcel-first, address-fallback resolution. -/
theorem c6_join_field_derivation (by_parcel by_addr : PDict) (m : MortRec) :
    joinRow by_parcel by_addr m = specDerive m (specResolve by_parcel by_addr m) := by
  unfold joinRow specDerive specResolve pyOr
  by_cases hpid : m.parcel_id = "" <;>
    by_cases haddr : m.address = "" <;>
      by_cases hbook : m.book_page = "" <;>
        cases hga : assocGet by_addr (normalize_address m.address) <;>
          cases hgp : assocGet by_parcel m.parcel_id <;>
            simp_all

/-- C8: `parse_date` returns none for empty input and otherwise tries, in this
fixed order, year-month-day with hyphens, month/day/year with slashes,
year/month/day with slashes, month-day-year with hyphens on the trimmed input,
returning the first strict parse and none when no pattern matches (it is a
total function — never raises). -/
theorem c8_parse_date_spec (s : String) : parse_date s = specDateParse s := by
  by_cases h : s = ""
  · simp [parse_date, specDateParse, h]
  · simp only [parse_date, specDateParse, specDateFormats, if_neg h, List.findSome?]
    cases strptimeDate (runYmd '-' (pyStrip s.data)) <;>
      cases strptimeDate (runMdy '/' (pyStrip s.data)) <;>
        cases strptimeDate (runYmd '/' (pyStrip s.data)) <;>
          cases strptimeDate (runMdy '-' (pyStrip s.data)) <;> simp

/-! ## Claim C1: the recency cutoff boundary -/

/-- C1 counterexample: with `today = 2026-10-12` and `years = 2`, a mortgage
recorded `2024-10-12` — exactly `years*365 = 730` days before today, i.e.
exactly at the cutoff — is *included* by `load_mortgages` (the claim says it is
excluded; `rec_date < cutoff` is false at equality, so the strict comparison
keeps the boundary date). -/
theorem c1_boundary_included_counterexample :
    load_mortgages "doc_type,recording_date\nMortgage,2024-10-12" 2 ⟨2026, 10, 12⟩ =
      Except.ok [⟨"", "", "2024-10-12", "", ""⟩] ∧
    Except.ok [(⟨"", "", "2024-10-12", "", ""⟩ : MortRec)] ≠
      (Except.ok [] : Except String (List MortRec)) := by
  refine ⟨by rfl, fun h => ?_⟩
  simp at h

/-- C1 (amended): with the cutoff ordinal `o` computed once from `today` and
`years`, a mortgage row whose parsed recording date is exactly at the cutoff
(`years*365` days before today) or one day more recent is *included*; only
rows whose date is strictly before the cutoff are excluded. -/
theorem c1_cutoff_boundary_amended (row : RawRow) (today : PyDate) (years : Int) (o : Int)
    (rd : PyDate) (doc rdraw a p i b : String)
    (hc : cutoffE today years = Except.ok o)
    (hdoc : pick_col row mortDocCands = Except.ok doc)
    (hup : pyUpper doc = "MORTGAGE")
    (hrdr : pick_col row mortDateCands = Except.ok rdraw)
    (hpd : parse_date rdraw = some rd)
    (ha : pick_col row mortAddrCands = Except.ok a)
    (hp : pick_col row mortParcelCands = Except.ok p)
    (hi : pick_col row mortInstrCands = Except.ok i)
    (hb : pick_col row mortBookCands = Except.ok b) :
    (dateOrdinal rd = o ∨ dateOrdinal rd = o + 1 →
      load_mortgages_rows o [row] [] = Except.ok [⟨a, p, isoDate rd, i, b⟩]) ∧
    (dateOrdinal rd < o → load_mortgages_rows o [row] [] = Except.ok []) := by
  constructor
  · intro hor
    have hlt : ¬ dateOrdinal rd < o := by rcases hor with h | h <;> omega
    simp [load_mortgages_rows, mortRowE, hdoc, hup, hrdr, hpd, hlt, ha, hp, hi, hb,
      Bind.bind, Except.bind, Functor.map, Except.map, pure, Except.pure]
  · intro hlt
    simp [load_mortgages_rows, mortRowE, hdoc, hup, hrdr, hpd, hlt,
      Bind.bind, Except.bind, Functor.map, Except.map, pure, Except.pure]

theorem c1_cutoff_boundary_witness :
    cutoffE ⟨2026, 10, 12⟩ 2 = Except.ok 739171 ∧
    dateOrdinal ⟨2024, 10, 12⟩ = 739171 ∧
    load_mortgages_rows 739171
        [[(some "doc_type", CsvCell.str "Mortgage"),
          (some "recording_date", CsvCell.str "2024-10-12")]] [] =
      Except.ok [⟨"", "", isoDate ⟨2024, 10, 12⟩, "", ""⟩] :=
  ⟨by rfl, by decide,
   (c1_cutoff_boundary_amended
      [(some "doc_type", CsvCell.str "Mortgage"),
       (some "recording_date", CsvCell.str "2024-10-12")]
      ⟨2026, 10, 12⟩ 2 739171 ⟨2024, 10, 12⟩
      "Mortgage" "2024-10-12" "" "" "" ""
      (by rfl) (by rfl) (by decide) (by rfl) (by rfl)
      (by rfl) (by rfl) (by rfl) (by rfl)).1 (Or.inl (by decide))⟩

/-! ## Claim C5 counterexample: the pipeline is not total downstream of retrieval -/

/-- C5 counterexample: a ragged property CSV — the data row `x,y,z` is longer
than the header `a,b` — makes `csv.DictReader` store the extras under the key
`None`; `pick_col`'s `k.lower()` then raises `AttributeError`, so the pipeline
aborts rather than producing a result. -/
theorem c5_ragged_csv_counterexample :
    pipeline "a,b\nx,y,z" "doc_type\n" 2 ⟨2026, 10, 12⟩ = Except.error "AttributeError" ∧
    ∀ rows : List JoinedRow,
      (Except.error "AttributeError" : Except String (List JoinedRow)) ≠ Except.ok rows := by
  refine ⟨by rfl, fun rows h => ?_⟩
  simp at h

/-! ## Claim C9 counterexample: `normalize_address` is not idempotent -/

/-- C9 counterexample: `normalize_address "UNIT .X" = "UNIT X"` (the dot blocks
the designator match, so `UNIT` survives as an ordinary token), but
normalizing again yields `""` — the second pass now sees a unit designator and
removes it, leaving no tokens.  So `normalize` is not idempotent. -/
theorem c9_idempotence_counterexample :
    normalize_address (normalize_address "UNIT .X") ≠ normalize_address "UNIT .X" := by
  decide

/-! ## Dictionary and clean-row lemmas -/

theorem mem_assocSet {κ α : Type} [DecidableEq κ] (k : κ) (v : α) (d : List (κ × α))
    (kv : κ × α) (h : kv ∈ assocSet k v d) : kv = (k, v) ∨ kv ∈ d := by
  induction d with
  | nil => simpa [assocSet] using h
  | cons hd tl ih =>
    unfold assocSet at h
    by_cases he : hd.1 = k
    · rw [if_pos he] at h
      rcases List.mem_cons.1 h with h | h
      · exact Or.inl h
      · exact Or.inr (List.mem_cons_of_mem _ h)
    · rw [if_neg he] at h
      rcases List.mem_cons.1 h with h | h
      · exact Or.inr (h ▸ List.mem_cons_self _ _)
      · rcases ih h with h | h
        · exact Or.inl h
        · exact Or.inr (List.mem_cons_of_mem _ h)

theorem load_props_inv (rows : List RawRow) (acc : PDict × PDict) (bp ba : PDict)
    (hacc1 : ∀ kv ∈ acc.1, kv.1 ≠ "" ∧ kv.2.parcel_id = kv.1)
    (hacc2 : ∀ kv ∈ acc.2, kv.1 ≠ "" ∧ kv.2.norm_address = kv.1)
    (h : load_properties_rows rows acc = Except.ok (bp, ba)) :
    (∀ kv ∈ bp, kv.1 ≠ "" ∧ kv.2.parcel_id = kv.1) ∧
    (∀ kv ∈ ba, kv.1 ≠ "" ∧ kv.2.norm_address = kv.1) := by
  induction rows generalizing acc with
  | nil =>
    unfold load_properties_rows at h
    obtain ⟨rfl, rfl⟩ : acc.1 = bp ∧ acc.2 = ba := by
      cases acc; simpa [Prod.ext_iff] using h
    exact ⟨hacc1, hacc2⟩
  | cons row rest ih =>
    unfold load_properties_rows at h
    cases hrow : propRowE row with
    | error e => rw [hrow] at h; exact absurd h (by simp)
    | ok r =>
      rw [hrow] at h
      refine ih _ ?_ ?_ h
      · by_cases hpid : r.parcel_id ≠ ""
        · rw [if_pos hpid]
          intro kv hkv
          rcases mem_assocSet _ _ _ _ hkv with rfl | hkv
          · exact ⟨hpid, rfl⟩
          · exact hacc1 kv hkv
        · rw [if_neg hpid]; exact hacc1
      · by_cases hna : r.norm_address ≠ ""
        · rw [if_pos hna]
          intro kv hkv
          rcases mem_assocSet _ _ _ _ hkv with rfl | hkv
          · exact ⟨hna, rfl⟩
          · exact hacc2 kv hkv
        · rw [if_neg hna]; exact hacc2

/-- C7: for every property-roll text that the builder processes successfully,
every key of `by_parcel` is a non-empty parcel id (each stored record's own
parcel id), and every key of `by_addr` is a non-empty normalized address (each
stored record's own normalized address); hence a row resolving to an empty
parcel id is absent from `by_parcel`, and a row whose address normalizes to
the empty string is absent from `by_addr`.  The two concrete conjuncts show
that such rows may still appear in the *other* index. -/
theorem c7_index_key_invariants :
    (∀ (t : String) (bp ba : PDict), load_properties t = Except.ok (bp, ba) →
      (∀ kv ∈ bp, kv.1 ≠ "" ∧ kv.2.parcel_id = kv.1) ∧
      (∀ kv ∈ ba, kv.1 ≠ "" ∧ kv.2.norm_address = kv.1)) ∧
    (∃ r : PropRec, load_properties "address\n9 Oak Way" =
      Except.ok ([], [("9 OAK WAY", r)]) ∧ r.parcel_id = "") ∧
    (∃ r : PropRec, load_properties "folio\nF1" =
      Except.ok ([("F1", r)], []) ∧ r.norm_address = "") := by
  refine ⟨fun t bp ba h => load_props_inv _ _ _ _ (by simp) (by simp) h, ?_, ?_⟩
  · exact ⟨⟨"9 Oak Way", "", "", "9 OAK WAY"⟩, by rfl, rfl⟩
  · exact ⟨⟨"", "F1", "", ""⟩, by rfl, rfl⟩

theorem c7_index_key_invariants_witness :
    (∀ kv ∈ ([("P1", PropRec.mk "1 Main St" "P1" "" "1 MAIN ST")] : PDict),
      kv.1 ≠ "" ∧ kv.2.parcel_id = kv.1) ∧
    (∀ kv ∈ ([("1 MAIN ST", PropRec.mk "1 Main St" "P1" "" "1 MAIN ST")] : PDict),
      kv.1 ≠ "" ∧ kv.2.norm_address = kv.1) :=
  c7_index_key_invariants.1 "folio,address\nP1,1 Main St"
    [("P1", ⟨"1 Main St", "P1", "", "1 MAIN ST"⟩)]
    [("1 MAIN ST", ⟨"1 Main St", "P1", "", "1 MAIN ST"⟩)] (by rfl)

/-! ## Claim C5 (amended): totality on non-ragged input -/

theorem cleanRow_foldl_assocSet (ps : List (String × String)) (d : RawRow)
    (hd : cleanRow d) :
    cleanRow (ps.foldl (fun d kv => assocSet (some kv.1) (CsvCell.str kv.2) d) d) := by
  induction ps generalizing d with
  | nil => exact hd
  | cons p rest ih =>
    refine ih _ ?_
    intro kv hkv
    rcases mem_assocSet _ _ _ _ hkv with rfl | hkv
    · exact ⟨rfl, _, rfl⟩
    · exact hd kv hkv

theorem cleanRow_dictZip (fns vals : List String) (h : vals.length = fns.length) :
    cleanRow (dictZip fns vals) := by
  unfold dictZip
  rw [if_neg (by omega), if_neg (by omega)]
  exact cleanRow_foldl_assocSet _ _ (by intro kv hkv; simp at hkv)

theorem dictReader_clean (t : String) (h : rectangularCsv t = true) :
    ∀ row ∈ dictReaderRows t, cleanRow row := by
  unfold rectangularCsv at h
  unfold dictReaderRows
  cases hcl : csvLines t with
  | nil => simp
  | cons header rest =>
    rw [hcl] at h
    intro row hrow
    obtain ⟨r, hr, rfl⟩ := List.mem_map.1 hrow
    obtain ⟨hmem, hne⟩ := List.mem_filter.1 hr
    have hlen := List.all_eq_true.1 h r hmem
    simp only [Bool.or_eq_true, beq_iff_eq] at hlen
    rcases hlen with hlen | hlen
    · rw [hlen] at hne; exact absurd hne (by simp)
    · exact cleanRow_dictZip header r hlen

theorem rawGet_clean (row : RawRow) (h : cleanRow row) (k : String) :
    rawGet row k = none ∨ ∃ v, rawGet row k = some (CsvCell.str v) := by
  unfold rawGet
  cases hf : row.find? (fun kv => decide (kv.1 = some k)) with
  | none => exact Or.inl rfl
  | some kv =>
    obtain ⟨_, v, hv⟩ := h kv (List.mem_of_find?_eq_some hf)
    exact Or.inr ⟨v, by simp [hv]⟩

theorem pick_col_clean (row : RawRow) (h : cleanRow row) (cands : List String) :
    ∃ s, pick_col row cands = Except.ok s := by
  unfold pick_col
  have hok : rawKeysOk row = true := List.all_eq_true.2 (fun kv hkv => (h kv hkv).1)
  rw [if_pos hok]
  induction cands with
  | nil => exact ⟨"", rfl⟩
  | cons cand rest ih =>
    unfold pickLoop
    cases hget : assocGet (buildLowered row) (pyLower cand) with
    | none => simp only [hget]; exact ih
    | some k =>
      simp only [hget]
      by_cases hk : k = ""
      · simp only [if_pos hk]; exact ih
      · simp only [if_neg hk]
        rcases rawGet_clean row h k with hg | ⟨v, hg⟩
        · simp only [hg]; exact ⟨"", rfl⟩
        · simp only [hg]; exact ⟨pyStripS v, rfl⟩

theorem propRowE_clean (row : RawRow) (h : cleanRow row) :
    ∃ r, propRowE row = Except.ok r := by
  obtain ⟨s1, h1⟩ := pick_col_clean row h propParcelCands
  obtain ⟨s2, h2⟩ := pick_col_clean row h propAddrCands
  obtain ⟨s3, h3⟩ := pick_col_clean row h propAssessedCands
  refine ⟨⟨s2, s1, s3, normalize_address s2⟩, ?_⟩
  simp [propRowE, h1, h2, h3, Bind.bind, Except.bind, pure, Except.pure]

theorem mortRowE_clean (cutoff : Int) (row : RawRow) (h : cleanRow row) :
    ∃ o, mortRowE cutoff row = Except.ok o := by
  obtain ⟨sdoc, hdoc⟩ := pick_col_clean row h mortDocCands
  obtain ⟨srd, hrd⟩ := pick_col_clean row h mortDateCands
  obtain ⟨sa, ha⟩ := pick_col_clean row h mortAddrCands
  obtain ⟨sp, hp⟩ := pick_col_clean row h mortParcelCands
  obtain ⟨si, hi⟩ := pick_col_clean row h mortInstrCands
  obtain ⟨sb, hb⟩ := pick_col_clean row h mortBookCands
  by_cases hm : pyUpper sdoc = "MORTGAGE"
  · cases hpd : parse_date srd with
    | none =>
      exact ⟨none, by simp [mortRowE, hdoc, hrd, hm, hpd, Bind.bind, Except.bind, pure, Except.pure]⟩
    | some rd =>
      by_cases hlt : dateOrdinal rd < cutoff
      · exact ⟨none, by
          simp [mortRowE, hdoc, hrd, hm, hpd, hlt, Bind.bind, Except.bind, pure, Except.pure]⟩
      · exact ⟨some ⟨sa, sp, isoDate rd, si, sb⟩, by
          simp [mortRowE, hdoc, hrd, hm, hpd, hlt, ha, hp, hi, hb,
            Bind.bind, Except.bind, pure, Except.pure, Functor.map, Except.map]⟩
  · exact ⟨none, by simp [mortRowE, hdoc, hm, Bind.bind, Except.bind, pure, Except.pure]⟩

theorem load_props_clean (rows : List RawRow) (h : ∀ row ∈ rows, cleanRow row)
    (acc : PDict × PDict) : ∃ v, load_properties_rows rows acc = Except.ok v := by
  induction rows generalizing acc with
  | nil => exact ⟨acc, rfl⟩
  | cons row rest ih =>
    obtain ⟨r, hr⟩ := propRowE_clean row (h row (List.mem_cons_self _ _))
    unfold load_properties_rows
    rw [hr]
    exact ih (fun row hrow => h row (List.mem_cons_of_mem _ hrow)) _

theorem load_morts_clean (cutoff : Int) (rows : List RawRow)
    (h : ∀ row ∈ rows, cleanRow row) (acc : List MortRec) :
    ∃ v, load_mortgages_rows cutoff rows acc = Except.ok v := by
  induction rows generalizing acc with
  | nil => exact ⟨acc, rfl⟩
  | cons row rest ih =>
    obtain ⟨o, ho⟩ := mortRowE_clean cutoff row (h row (List.mem_cons_self _ _))
    unfold load_mortgages_rows
    rw [ho]
    cases o with
    | none => exact ih (fun row hrow => h row (List.mem_cons_of_mem _ hrow)) _
    | some m => exact ih (fun row hrow => h row (List.mem_cons_of_mem _ hrow)) _

/-- C5 (amended): downstream of successfully retrieved text the pipeline is
total *provided* the two texts are rectangular (every data row has as many
fields as the header — otherwise `csv.DictReader`'s `None` restkey/restval
makes `pick_col` raise `AttributeError`) and the cutoff computation stays in
`datetime.date`'s range (otherwise `OverflowError`). -/
theorem c5_pipeline_total_amended (p m : String) (years : Int) (today : PyDate) (o : Int)
    (hp : rectangularCsv p = true) (hm : rectangularCsv m = true)
    (hc : cutoffE today years = Except.ok o) :
    ∃ rows, pipeline p m years today = Except.ok rows := by
  obtain ⟨⟨bp, ba⟩, hprops⟩ := load_props_clean _ (dictReader_clean p hp) ([], [])
  obtain ⟨ms, hms⟩ := load_morts_clean o _ (dictReader_clean m hm) []
  refine ⟨join_records ms bp ba, ?_⟩
  simp [pipeline, load_properties, load_mortgages, hprops, hc, hms]

theorem c5_pipeline_total_witness :
    rectangularCsv "address\n1 Main St" = true ∧
    rectangularCsv "doc_type\nDeed" = true ∧
    ∃ rows, pipeline "address\n1 Main St" "doc_type\nDeed" 2 ⟨2026, 10, 12⟩ = Except.ok rows :=
  ⟨by decide, by decide,
   c5_pipeline_total_amended "address\n1 Main St" "doc_type\nDeed" 2 ⟨2026, 10, 12⟩ 739171
     (by decide) (by decide) (by rfl)⟩

/-! ## Generic list and character-class lemmas for the normalizer -/

theorem takeWhile_all (p : Char → Bool) (l : List Char) (h : ∀ a ∈ l, p a = true) :
    l.takeWhile p = l := by
  induction l with
  | nil => rfl
  | cons c rest ih =>
    rw [List.takeWhile_cons_of_pos (h c (List.mem_cons_self _ _))]
    rw [ih (fun a ha => h a (List.mem_cons_of_mem _ ha))]

theorem dropWhile_all (p : Char → Bool) (l : List Char) (h : ∀ a ∈ l, p a = true) :
    l.dropWhile p = [] := by
  induction l with
  | nil => rfl
  | cons c rest ih =>
    rw [List.dropWhile_cons_of_pos (h c (List.mem_cons_self _ _))]
    exact ih (fun a ha => h a (List.mem_cons_of_mem _ ha))

theorem takeWhile_append_block (p : Char → Bool) (l1 l2 : List Char) (b : Char)
    (h1 : ∀ a ∈ l1, p a = true) (hb : p b = false) :
    (l1 ++ b :: l2).takeWhile p = l1 := by
  induction l1 with
  | nil =>
    simp only [List.nil_append]
    exact List.takeWhile_cons_of_neg (by simp [hb])
  | cons c rest ih =>
    rw [List.cons_append, List.takeWhile_cons_of_pos (h1 c (List.mem_cons_self _ _))]
    rw [ih (fun a ha => h1 a (List.mem_cons_of_mem _ ha))]

theorem dropWhile_append_block (p : Char → Bool) (l1 l2 : List Char) (b : Char)
    (h1 : ∀ a ∈ l1, p a = true) (hb : p b = false) :
    (l1 ++ b :: l2).dropWhile p = b :: l2 := by
  induction l1 with
  | nil =>
    simp only [List.nil_append]
    exact List.dropWhile_cons_of_neg (by simp [hb])
  | cons c rest ih =>
    rw [List.cons_append, List.dropWhile_cons_of_pos (h1 c (List.mem_cons_self _ _))]
    exact ih (fun a ha => h1 a (List.mem_cons_of_mem _ ha))

theorem map_id_of {α : Type} (f : α → α) (l : List α) (h : ∀ a ∈ l, f a = a) :
    l.map f = l := by
  induction l with
  | nil => rfl
  | cons c rest ih =>
    rw [List.map_cons, h c (List.mem_cons_self _ _),
      ih (fun a ha => h a (List.mem_cons_of_mem _ ha))]

theorem dropWhile_eq_self_of_head (p : Char → Bool) (l : List Char)
    (h : ∀ c, l.head? = some c → p c = false) : l.dropWhile p = l := by
  cases l with
  | nil => rfl
  | cons c rest => exact List.dropWhile_cons_of_neg (by simp [h c rfl])

theorem mem_of_getLast?_eq_some {l : List Char} {a : Char} (h : l.getLast? = some a) :
    a ∈ l := by
  obtain ⟨hne, rfl⟩ := List.mem_getLast?_eq_getLast (Option.mem_def.mpr h)
  exact List.getLast_mem hne

theorem pyStrip_id (l : List Char)
    (h1 : ∀ c, l.head? = some c → isSpaceChar c = false)
    (h2 : ∀ c, l.getLast? = some c → isSpaceChar c = false) : pyStrip l = l := by
  unfold pyStrip
  rw [dropWhile_eq_self_of_head _ _ h1]
  rw [dropWhile_eq_self_of_head _ _ (by
    intro c hc
    rw [List.head?_reverse] at hc
    exact h2 c hc)]
  exact List.reverse_reverse l

theorem char_toNat_inj (c d : Char) (h : c.toNat = d.toNat) : c = d := by
  apply Char.eq_of_val_eq
  exact UInt32.eq_of_val_eq (Fin.ext h)

theorem replaceHash_id (l : List Char) (h : ∀ c ∈ l, c ≠ '#') : replaceHash l = l := by
  induction l with
  | nil => rfl
  | cons c rest ih =>
    unfold replaceHash
    rw [if_neg (h c (List.mem_cons_self _ _))]
    rw [ih (fun a ha => h a (List.mem_cons_of_mem _ ha))]

theorem scrubChar_mem (c : Char) (l : List Char) (h : c ∈ l.map scrubChar) :
    (isUpperChar c || isDigitChar c || isSpaceChar c) = true := by
  obtain ⟨x, _, rfl⟩ := List.mem_map.1 h
  unfold scrubChar
  by_cases hx : (isUpperChar x || isDigitChar x || isSpaceChar x) = true
  · rwa [if_pos hx]
  · rw [if_neg hx]; decide

theorem tok_not_space (c : Char) (h : (isUpperChar c || isDigitChar c) = true) :
    isSpaceChar c = false := by
  rw [Bool.eq_false_iff]
  intro hs
  unfold isUpperChar isDigitChar at h
  unfold isSpaceChar at hs
  simp only [Bool.or_eq_true, Bool.and_eq_true, decide_eq_true_eq] at h hs
  omega

theorem tokSpace_not_lower (c : Char)
    (h : (isUpperChar c || isDigitChar c || isSpaceChar c) = true) :
    isLowerChar c = false := by
  rw [Bool.eq_false_iff]
  intro hl
  unfold isUpperChar isDigitChar isSpaceChar at h
  unfold isLowerChar at hl
  simp only [Bool.or_eq_true, Bool.and_eq_true, decide_eq_true_eq] at h hl
  omega

theorem tokSpace_ne_hash (c : Char)
    (h : (isUpperChar c || isDigitChar c || isSpaceChar c) = true) : c ≠ '#' := by
  intro hc
  subst hc
  exact absurd h (by decide)

theorem unitVal_not_space (c : Char) (h : isUnitValChar c = true) : isSpaceChar c = false := by
  rw [Bool.eq_false_iff]
  intro hs
  unfold isUnitValChar isUpperChar isDigitChar at h
  unfold isSpaceChar at hs
  simp only [Bool.or_eq_true, Bool.and_eq_true, decide_eq_true_eq] at h hs
  omega

theorem unitVal_word (c : Char) (h : isUnitValChar c = true) (hd : c ≠ '-') :
    isWordChar c = true := by
  have hne : c.toNat ≠ 45 := fun hn => hd (char_toNat_inj c '-' hn)
  unfold isUnitValChar isUpperChar isDigitChar at h
  unfold isWordChar isUpperChar isLowerChar isDigitChar
  simp only [Bool.or_eq_true, Bool.and_eq_true, decide_eq_true_eq] at h ⊢
  omega

theorem pyUpperChar_id (c : Char) (h : isLowerChar c = false) : pyUpperChar c = c := by
  unfold pyUpperChar
  rw [h]
  rfl

theorem scrubChar_id (c : Char) (h : (isUpperChar c || isDigitChar c || isSpaceChar c) = true) :
    scrubChar c = c := by
  unfold scrubChar
  rw [if_pos h]

/-! ## Tokeniser and scanner lemmas -/

theorem splitTokens_nil : splitTokens [] = [] := rfl

theorem splitTokensF_irrel (fuel1 : Nat) : ∀ (fuel2 : Nat) (l : List Char),
    l.length ≤ fuel1 → l.length ≤ fuel2 → splitTokensF l fuel1 = splitTokensF l fuel2 := by
  induction fuel1 with
  | zero =>
    intro fuel2 l h1 _
    have hl : l = [] := List.length_eq_zero.1 (by omega)
    subst hl
    cases fuel2 <;> rfl
  | succ fuel1 ih =>
    intro fuel2 l h1 h2
    cases l with
    | nil => cases fuel2 <;> rfl
    | cons c rest =>
      cases fuel2 with
      | zero => simp at h2
      | succ fuel2 =>
        simp only [splitTokensF]
        by_cases hc : isSpaceChar c
        · rw [if_pos hc, if_pos hc]
          exact ih fuel2 rest (by simpa using h1) (by simpa using h2)
        · rw [if_neg hc, if_neg hc]
          have hd := length_dropWhile_le (fun d => !isSpaceChar d) rest
          rw [ih fuel2 (rest.dropWhile (fun d => !isSpaceChar d))
            (by simp at h1 ⊢; omega) (by simp at h2 ⊢; omega)]

theorem splitTokens_cons_space (c : Char) (rest : List Char) (hc : isSpaceChar c = true) :
    splitTokens (c :: rest) = splitTokens rest := by
  unfold splitTokens
  simp only [List.length_cons, splitTokensF]
  rw [if_pos hc]

theorem splitTokens_cons_nonspace (c : Char) (rest : List Char) (hc : isSpaceChar c = false) :
    splitTokens (c :: rest) =
      (c :: rest.takeWhile (fun d => !isSpaceChar d)) ::
        splitTokens (rest.dropWhile (fun d => !isSpaceChar d)) := by
  unfold splitTokens
  simp only [List.length_cons, splitTokensF]
  rw [if_neg (by simp [hc])]
  have hd := length_dropWhile_le (fun d => !isSpaceChar d) rest
  rw [splitTokensF_irrel rest.length (rest.dropWhile (fun d => !isSpaceChar d)).length
    (rest.dropWhile (fun d => !isSpaceChar d)) (by omega) le_rfl]

theorem splitTokensF_sound (fuel : Nat) : ∀ (l : List Char), ∀ t ∈ splitTokensF l fuel,
    t ≠ [] ∧ ∀ c ∈ t, isSpaceChar c = false ∧ c ∈ l := by
  induction fuel with
  | zero => intro l t ht; simp [splitTokensF] at ht
  | succ fuel ih =>
    intro l t ht
    cases l with
    | nil => simp [splitTokensF] at ht
    | cons c rest =>
      simp only [splitTokensF] at ht
      by_cases hc : isSpaceChar c
      · rw [if_pos hc] at ht
        obtain ⟨hne, hch⟩ := ih rest t ht
        exact ⟨hne, fun d hd => ⟨(hch d hd).1, List.mem_cons_of_mem _ (hch d hd).2⟩⟩
      · rw [if_neg hc] at ht
        rcases List.mem_cons.1 ht with rfl | ht
        · refine ⟨by simp, fun d hd => ?_⟩
          rcases List.mem_cons.1 hd with rfl | hd
          · exact ⟨by simpa using hc, List.mem_cons_self _ _⟩
          · have hp := List.mem_takeWhile_imp hd
            refine ⟨by simpa using hp, List.mem_cons_of_mem _ ?_⟩
            exact (List.takeWhile_sublist _).mem hd
        · obtain ⟨hne, hch⟩ := ih _ t ht
          refine ⟨hne, fun d hd => ⟨(hch d hd).1, List.mem_cons_of_mem _ ?_⟩⟩
          exact (List.dropWhile_sublist _).mem (hch d hd).2

theorem splitTokens_sound (l : List Char) : ∀ t ∈ splitTokens l,
    t ≠ [] ∧ ∀ c ∈ t, isSpaceChar c = false ∧ c ∈ l :=
  splitTokensF_sound l.length l

theorem unitScanSub_nil (prev : Option Char) : unitScanSub prev [] = [] := rfl

theorem tryMatchAt_nil (prev : Option Char) : tryMatchAt prev [] = none := rfl

theorem unitSearch_none_step (p : Option Char) (c : Char) (rest : List Char)
    (h : unitSearch p (c :: rest) = none) :
    tryMatchAt p (c :: rest) = none ∧ unitSearch (some c) rest = none := by
  unfold unitSearch at h
  cases hm : tryMatchAt p (c :: rest) with
  | some v => rw [hm] at h; exact absurd h (by simp)
  | none => rw [hm] at h; exact ⟨rfl, h⟩

theorem unitScanSubF_id (fuel : Nat) : ∀ (p : Option Char) (l : List Char),
    unitSearch p l = none → unitScanSubF p l fuel = l := by
  induction fuel with
  | zero => intro p l _; rfl
  | succ fuel ih =>
    intro p l h
    cases l with
    | nil => rfl
    | cons c rest =>
      obtain ⟨hm, hs⟩ := unitSearch_none_step p c rest h
      simp only [unitScanSubF]
      rw [hm]
      rw [ih (some c) rest hs]

theorem unitScanSub_id (p : Option Char) (l : List Char) (h : unitSearch p l = none) :
    unitScanSub p l = l :=
  unitScanSubF_id l.length p l h

theorem unitSearch_none_split (l1 : List Char) : ∀ (p : Option Char) (l2 : List Char),
    unitSearch p (l1 ++ l2) = none → tryMatchAt (l1.getLast?.elim p some) l2 = none := by
  induction l1 with
  | nil =>
    intro p l2 h
    cases l2 with
    | nil => rfl
    | cons c rest => exact (unitSearch_none_step p c rest h).1
  | cons x l1 ih =>
    intro p l2 h
    rw [List.cons_append] at h
    have h2 := (unitSearch_none_step p x (l1 ++ l2) h).2
    have := ih (some x) l2 h2
    cases l1 with
    | nil => simpa using this
    | cons y l1 => simpa [List.getLast?_cons_cons] using this

/-! ## `joinSp` lemmas -/

theorem joinSp_cons_cons (t u : List Char) (ts : List (List Char)) :
    joinSp (t :: u :: ts) = t ++ ' ' :: joinSp (u :: ts) := rfl

theorem joinSp_ne_nil (ts : List (List Char)) (h : ts ≠ []) (h1 : ∀ t ∈ ts, t ≠ []) :
    joinSp ts ≠ [] := by
  match ts with
  | [t] => exact h1 t (List.mem_cons_self _ _)
  | t :: u :: ts =>
    rw [joinSp_cons_cons]
    intro hx
    exact h1 t (List.mem_cons_self _ _) (List.append_eq_nil.1 hx).1

theorem mem_joinSp (c : Char) (ts : List (List Char)) (h : c ∈ joinSp ts) :
    c = ' ' ∨ ∃ t ∈ ts, c ∈ t := by
  match ts with
  | [] => simp [joinSp] at h
  | [t] => exact Or.inr ⟨t, List.mem_cons_self _ _, h⟩
  | t :: u :: ts =>
    rw [joinSp_cons_cons] at h
    rcases List.mem_append.1 h with h | h
    · exact Or.inr ⟨t, List.mem_cons_self _ _, h⟩
    · rcases List.mem_cons.1 h with rfl | h
      · exact Or.inl rfl
      · rcases mem_joinSp c (u :: ts) h with h | ⟨v, hv, hc⟩
        · exact Or.inl h
        · exact Or.inr ⟨v, List.mem_cons_of_mem _ hv, hc⟩

theorem mem_joinSp_of_mem (c : Char) (t : List Char) (ts : List (List Char))
    (ht : t ∈ ts) (hc : c ∈ t) : c ∈ joinSp ts := by
  match ts with
  | [] => simp at ht
  | [u] =>
    rcases List.mem_cons.1 ht with rfl | h
    · exact hc
    · simp at h
  | u :: v :: ts =>
    rw [joinSp_cons_cons]
    rcases List.mem_cons.1 ht with rfl | h
    · exact List.mem_append.2 (Or.inl hc)
    · exact List.mem_append.2 (Or.inr (List.mem_cons_of_mem _
        (mem_joinSp_of_mem c t (v :: ts) h hc)))

theorem head_joinSp (t : List Char) (ts : List (List Char)) (ht : t ≠ []) :
    (joinSp (t :: ts)).head? = t.head? := by
  match ts with
  | [] => rfl
  | u :: ts =>
    rw [joinSp_cons_cons]
    match t, ht with
    | c :: t, _ => rfl

theorem getLast_joinSp (ts : List (List Char)) (h : ts ≠ []) (h1 : ∀ t ∈ ts, t ≠ []) :
    ∃ c, (joinSp ts).getLast? = some c ∧ ∃ t ∈ ts, c ∈ t := by
  match ts with
  | [t] =>
    have ht := h1 t (List.mem_cons_self _ _)
    cases hg : t.getLast? with
    | none => exact absurd (List.getLast?_eq_none_iff.1 hg) ht
    | some c => exact ⟨c, hg, t, List.mem_cons_self _ _, mem_of_getLast?_eq_some hg⟩
  | t :: u :: ts =>
    obtain ⟨c, hg, v, hv, hc⟩ := getLast_joinSp (u :: ts) (by simp)
      (fun x hx => h1 x (List.mem_cons_of_mem _ hx))
    refine ⟨c, ?_, v, List.mem_cons_of_mem _ hv, hc⟩
    rw [joinSp_cons_cons]
    have hne : ' ' :: joinSp (u :: ts) ≠ [] := by simp
    rw [List.getLast?_append_of_ne_nil t hne]
    cases hj : joinSp (u :: ts) with
    | nil =>
      exact absurd hj (joinSp_ne_nil (u :: ts) (by simp)
        (fun x hx => h1 x (List.mem_cons_of_mem _ hx)))
    | cons d ds =>
      rw [hj] at hg
      rw [show ' ' :: d :: ds = [' '] ++ d :: ds from rfl]
      rw [List.getLast?_append_of_ne_nil [' '] (by simp)]
      exact hg

theorem joinSp_append_single (ts : List (List Char)) (x : List Char) (h : ts ≠ []) :
    joinSp (ts ++ [x]) = joinSp ts ++ ' ' :: x := by
  match ts with
  | [t] => rfl
  | t :: u :: ts =>
    have hrec := joinSp_append_single (u :: ts) x (by simp)
    calc joinSp ((t :: u :: ts) ++ [x])
        = t ++ ' ' :: joinSp ((u :: ts) ++ [x]) := rfl
      _ = t ++ ' ' :: (joinSp (u :: ts) ++ ' ' :: x) := by rw [hrec]
      _ = (t ++ ' ' :: joinSp (u :: ts)) ++ ' ' :: x := by simp
      _ = joinSp (t :: u :: ts) ++ ' ' :: x := rfl

theorem splitTokens_token (t : List Char) (rest : List Char) (ht : t ≠ [])
    (hc : ∀ c ∈ t, isSpaceChar c = false)
    (hrest : rest = [] ∨ ∃ r, rest = ' ' :: r) :
    splitTokens (t ++ rest) = t :: splitTokens (rest.dropWhile (fun d => !isSpaceChar d)) := by
  match t, ht with
  | c :: t, _ =>
    rw [List.cons_append, splitTokens_cons_nonspace c (t ++ rest)
      (hc c (List.mem_cons_self _ _))]
    rcases hrest with rfl | ⟨r, rfl⟩
    · rw [List.append_nil]
      rw [takeWhile_all _ t (fun a ha => by
        simp [hc a (List.mem_cons_of_mem _ ha)])]
      rw [dropWhile_all _ t (fun a ha => by
        simp [hc a (List.mem_cons_of_mem _ ha)])]
      rfl
    · rw [takeWhile_append_block _ t r ' '
        (fun a ha => by simp [hc a (List.mem_cons_of_mem _ ha)]) (by decide)]
      rw [dropWhile_append_block _ t r ' '
        (fun a ha => by simp [hc a (List.mem_cons_of_mem _ ha)]) (by decide)]
      rw [show (' ' :: r).dropWhile (fun d => !isSpaceChar d) = ' ' :: r from
        List.dropWhile_cons_of_neg (by decide)]

theorem splitTokens_joinSp (ts : List (List Char))
    (h1 : ∀ t ∈ ts, t ≠ [] ∧ ∀ c ∈ t, isSpaceChar c = false) :
    splitTokens (joinSp ts) = ts := by
  match ts with
  | [] => rfl
  | [t] =>
    have := splitTokens_token t [] (h1 t (List.mem_cons_self _ _)).1
      (h1 t (List.mem_cons_self _ _)).2 (Or.inl rfl)
    simpa [joinSp] using this
  | t :: u :: ts =>
    rw [joinSp_cons_cons]
    rw [splitTokens_token t (' ' :: joinSp (u :: ts)) (h1 t (List.mem_cons_self _ _)).1
      (h1 t (List.mem_cons_self _ _)).2 (Or.inr ⟨joinSp (u :: ts), rfl⟩)]
    rw [show (' ' :: joinSp (u :: ts)).dropWhile (fun d => !isSpaceChar d) =
        ' ' :: joinSp (u :: ts) from List.dropWhile_cons_of_neg (by decide)]
    congr 1
    rw [splitTokens_cons_space ' ' (joinSp (u :: ts)) (by decide)]
    exact splitTokens_joinSp (u :: ts) (fun x hx => h1 x (List.mem_cons_of_mem _ hx))

/-! ## Capture lemmas for the unit pattern -/

theorem matchKeyword_some (l kw rest : List Char) (h : matchKeyword l = some (kw, rest)) :
    kw ∈ unitKeywords ∧ l = kw ++ rest := by
  obtain ⟨a, ha, hf⟩ := List.exists_of_findSome?_eq_some h
  by_cases hp : a.isPrefixOf l
  · rw [if_pos hp] at hf
    obtain ⟨rfl, rfl⟩ : a = kw ∧ l.drop a.length = rest := by
      simpa [Prod.ext_iff] using hf
    refine ⟨ha, ?_⟩
    obtain ⟨t, rfl⟩ := List.isPrefixOf_iff_prefix.1 hp
    rw [List.drop_left]
  · rw [if_neg hp] at hf
    exact absurd hf (by simp)

theorem btk_le (run : List Char) (next1 : Option Char) (k m : Nat)
    (h : btk run next1 k = some m) : 1 ≤ m ∧ m ≤ k := by
  induction k with
  | zero => simp [btk] at h
  | succ k ih =>
    unfold btk at h
    by_cases hb : boundaryB (run.get? k)
      (if k + 1 = run.length then next1 else run.get? (k + 1))
    · rw [if_pos hb] at h
      obtain rfl : k + 1 = m := by simpa using h
      omega
    · rw [if_neg hb] at h
      have := ih h
      omega

theorem tryMatchAt_capture (p : Option Char) (l cap : List Char) (n : Nat)
    (h : tryMatchAt p l = some (cap, n)) :
    cap ≠ [] ∧ (∀ c ∈ cap, isUnitValChar c = true) ∧ 1 ≤ n ∧ n ≤ l.length := by
  unfold tryMatchAt at h
  cases hk : matchKeyword l with
  | none => rw [hk] at h; exact absurd h (by simp)
  | some kwrest =>
    obtain ⟨kw, rest⟩ := kwrest
    simp only [hk] at h
    obtain ⟨hkw, hl⟩ := matchKeyword_some l kw rest hk
    by_cases hb : boundaryB p l.head?
    · rw [if_pos hb] at h
      cases he : endBacktrack (rest.dropWhile isSpaceChar |>.takeWhile isUnitValChar)
          (rest.dropWhile isSpaceChar |>.dropWhile isUnitValChar).head? with
      | none => simp only [he] at h; exact absurd h (by simp)
      | some m =>
        simp only [he, Option.some.injEq] at h
        obtain ⟨rfl, rfl⟩ :
            (rest.dropWhile isSpaceChar |>.takeWhile isUnitValChar).take m = cap ∧
            kw.length + (rest.takeWhile isSpaceChar).length + m = n := by
          simpa [Prod.ext_iff] using h
        obtain ⟨hm1, hm2⟩ := btk_le _ _ _ _ he
        have hkw1 : 1 ≤ kw.length := by
          have : ∀ k ∈ unitKeywords, 1 ≤ k.length := by decide
          exact this kw hkw
        refine ⟨?_, ?_, by omega, ?_⟩
        · have : ((rest.dropWhile isSpaceChar |>.takeWhile isUnitValChar).take m).length =
              min m (rest.dropWhile isSpaceChar |>.takeWhile isUnitValChar).length := by
            rw [List.length_take]
          intro hnil
          rw [hnil] at this
          simp at this
          omega
        · intro c hc
          exact List.mem_takeWhile_imp (List.mem_of_mem_take hc)
        · have hrest : rest.length =
              (rest.takeWhile isSpaceChar).length + (rest.dropWhile isSpaceChar).length := by
            conv_lhs => rw [← List.takeWhile_append_dropWhile (p := isSpaceChar) (l := rest)]
            rw [List.length_append]
          have hr2 : (rest.dropWhile isSpaceChar).length =
              (rest.dropWhile isSpaceChar |>.takeWhile isUnitValChar).length +
              (rest.dropWhile isSpaceChar |>.dropWhile isUnitValChar).length := by
            conv_lhs => rw [← List.takeWhile_append_dropWhile (p := isUnitValChar)
              (l := rest.dropWhile isSpaceChar)]
            rw [List.length_append]
          rw [hl, List.length_append]
          omega
    · rw [if_neg hb] at h
      exact absurd h (by simp)

theorem unitSearch_capture (p : Option Char) (l cap : List Char)
    (h : unitSearch p l = some cap) :
    cap ≠ [] ∧ ∀ c ∈ cap, isUnitValChar c = true := by
  induction l generalizing p with
  | nil => simp [unitSearch] at h
  | cons c rest ih =>
    unfold unitSearch at h
    cases hm : tryMatchAt p (c :: rest) with
    | some capn =>
      simp only [hm, Option.some.injEq] at h
      subst h
      obtain ⟨h1, h2, _, _⟩ := tryMatchAt_capture p (c :: rest) capn.1 capn.2 (by rw [hm])
      exact ⟨h1, h2⟩
    | none =>
      simp only [hm] at h
      exact ih (some c) h

theorem endBacktrack_full (u : List Char) (hu : u ≠ [])
    (hw : isWordCharO u.getLast? = true) : endBacktrack u none = some u.length := by
  match u, hu with
  | c :: u, _ =>
    have hb : boundaryB ((c :: u).get? u.length) none = true := by
      have hg : (c :: u).get? u.length = (c :: u).getLast? := by
        rw [List.getLast?_eq_get? (c :: u)]
        simp
      rw [hg]
      unfold boundaryB
      rw [hw]
      rfl
    show btk (c :: u) none (u.length + 1) = some ((c :: u).length)
    simp only [btk]
    rw [if_pos (show u.length + 1 = (c :: u).length by simp)]
    rw [if_pos hb]
    simp

/-! ## Suffix-map lemmas and the structure of `normalize_address` outputs -/

theorem suffix_map_vals : ∀ kv ∈ SUFFIX_MAP, kv.2.data ≠ [] ∧
    suffixApplyL kv.2.data = kv.2.data ∧
    ∀ c ∈ kv.2.data, (isUpperChar c || isDigitChar c) = true := by decide

theorem suffixApplyL_facts (p : List Char) (hp : p ≠ [])
    (hc : ∀ c ∈ p, (isUpperChar c || isDigitChar c) = true) :
    suffixApplyL p ≠ [] ∧ suffixApplyL (suffixApplyL p) = suffixApplyL p ∧
    ∀ c ∈ suffixApplyL p, (isUpperChar c || isDigitChar c) = true := by
  cases hf : SUFFIX_MAP.find? (fun kv => kv.1.data == p) with
  | some kv =>
    obtain ⟨h1, h2, h3⟩ := suffix_map_vals kv (List.mem_of_find?_eq_some hf)
    simp only [suffixApplyL, hf]
    simp only [suffixApplyL] at h2
    exact ⟨h1, h2, h3⟩
  | none =>
    simp only [suffixApplyL, hf]
    exact ⟨hp, trivial, hc⟩

theorem normCore_structure (l : List Char) :
    normCore l = [] ∨
    ∃ toks u, toks ≠ [] ∧
      (∀ t ∈ toks, t ≠ [] ∧ suffixApplyL t = t ∧
        ∀ c ∈ t, (isUpperChar c || isDigitChar c) = true) ∧
      (∀ c ∈ u, isUnitValChar c = true) ∧
      ((u = [] ∧ normCore l = joinSp toks) ∨
       (u ≠ [] ∧ normCore l = joinSp (toks ++ [unitTok u]))) := by
  by_cases hp : normParts l = []
  · left
    unfold normCore
    rw [if_pos hp]
  · right
    have htok : ∀ t ∈ (normParts l).map suffixApplyL, t ≠ [] ∧ suffixApplyL t = t ∧
        ∀ c ∈ t, (isUpperChar c || isDigitChar c) = true := by
      intro t ht
      obtain ⟨q, hq, rfl⟩ := List.mem_map.1 ht
      obtain ⟨hq1, hq2⟩ := splitTokens_sound _ q hq
      refine suffixApplyL_facts q hq1 (fun c hc => ?_)
      have hs := (hq2 c hc).1
      have hmem := scrubChar_mem c _ (hq2 c hc).2
      rcases Bool.or_eq_true_iff.1 hmem with hm | hm
      · rcases Bool.or_eq_true_iff.1 hm with hm | hm
        · simp [hm]
        · simp [hm]
      · rw [hm] at hs; simp at hs
    refine ⟨(normParts l).map suffixApplyL, normUnitVal l, by simpa using hp, htok, ?_, ?_⟩
    · intro c hc
      unfold normUnitVal at hc
      cases hsearch : unitSearch none (normPre l) with
      | none => rw [hsearch] at hc; simp at hc
      | some cap =>
        rw [hsearch] at hc
        exact (unitSearch_capture none (normPre l) cap hsearch).2 c (by simpa using hc)
    · by_cases hu : normUnitVal l = []
      · left
        refine ⟨hu, ?_⟩
        unfold normCore
        rw [if_neg hp, hu]
        simp
      · right
        refine ⟨hu, ?_⟩
        unfold normCore
        rw [if_neg hp, if_neg hu]

/-- C4: every output of `normalize_address` is either empty or a list of
non-empty tokens over uppercase letters and digits joined by single spaces,
optionally followed by the single token `UNIT` and the captured unit value
(whose characters come from the capture class `[A-Z0-9-]`).  In particular the
result has no character outside uppercase letters, digits and single spaces
except inside the trailing `UNIT`-value suffix. -/
theorem c4_normalize_charset (s : String) :
    normalize_address s = "" ∨
    ∃ (toks : List (List Char)) (u : List Char), toks ≠ [] ∧
      (∀ t ∈ toks, t ≠ [] ∧ ∀ c ∈ t, isUpperChar c = true ∨ isDigitChar c = true) ∧
      (∀ c ∈ u, isUpperChar c = true ∨ isDigitChar c = true ∨ c = '-') ∧
      ((normalize_address s).data = joinSp toks ∨
       (u ≠ [] ∧ (normalize_address s).data = joinSp (toks ++ [unitTok u]))) := by
  rcases normCore_structure s.data with h | ⟨toks, u, h1, h2, h3, h4⟩
  · left
    unfold normalize_address
    rw [h]
  · right
    refine ⟨toks, u, h1, ?_, ?_, ?_⟩
    · intro t ht
      obtain ⟨ht1, _, ht3⟩ := h2 t ht
      exact ⟨ht1, fun c hc => Bool.or_eq_true_iff.1 (ht3 c hc)⟩
    · intro c hc
      have := h3 c hc
      unfold isUnitValChar at this
      rcases Bool.or_eq_true_iff.1 this with hm | hm
      · rcases Bool.or_eq_true_iff.1 hm with hm | hm
        · exact Or.inl hm
        · exact Or.inr (Or.inl hm)
      · exact Or.inr (Or.inr (char_toNat_inj c '-' (by simpa using hm)))
    · rcases h4 with ⟨_, hr⟩ | ⟨hu, hr⟩
      · exact Or.inl (by rw [show (normalize_address s).data = normCore s.data from rfl, hr])
      · exact Or.inr ⟨hu, by rw [show (normalize_address s).data = normCore s.data from rfl, hr]⟩

/-! ## Idempotence on designator-free, hyphen-free outputs -/

theorem tryMatchAt_unitTok (u : List Char) (hu : u ≠ [])
    (hcls : ∀ c ∈ u, isUnitValChar c = true) (hw : ∀ c ∈ u, c ≠ '-') :
    tryMatchAt (some ' ') (unitTok u) = some (u, 5 + u.length) := by
  have hkw : matchKeyword (unitTok u) = some (['U', 'N', 'I', 'T'], ' ' :: u) := by
    unfold matchKeyword unitKeywords unitTok
    simp [List.findSome?, List.isPrefixOf]
  have hsp_take : (' ' :: u).takeWhile isSpaceChar = [' '] := by
    rw [List.takeWhile_cons_of_pos (by decide)]
    cases u with
    | nil => rfl
    | cons c u' =>
      rw [List.takeWhile_cons_of_neg (by
        simp [unitVal_not_space c (hcls c (List.mem_cons_self _ _))])]
  have hsp_drop : (' ' :: u).dropWhile isSpaceChar = u := by
    rw [List.dropWhile_cons_of_pos (by decide)]
    cases u with
    | nil => rfl
    | cons c u' =>
      rw [List.dropWhile_cons_of_neg (by
        simp [unitVal_not_space c (hcls c (List.mem_cons_self _ _))])]
  have hrun : u.takeWhile isUnitValChar = u := takeWhile_all _ _ hcls
  have hr3 : u.dropWhile isUnitValChar = [] := dropWhile_all _ _ hcls
  have hlast : isWordCharO u.getLast? = true := by
    cases hg : u.getLast? with
    | none => exact absurd (List.getLast?_eq_none.1 hg) hu
    | some c =>
      have hc := mem_of_getLast?_eq_some hg
      exact unitVal_word c (hcls c hc) (hw c hc)
  have hend := endBacktrack_full u hu hlast
  have hhd : (unitTok u).head? = some 'U' := rfl
  unfold tryMatchAt
  simp only [hkw]
  rw [if_pos (show boundaryB (some ' ') (unitTok u).head? = true from by rw [hhd]; decide)]
  simp only [hsp_take, hsp_drop, hrun, hr3, List.head?_nil, hend]
  rw [List.take_length]
  simp

theorem normCore_fix_of_tokens (toks : List (List Char)) (h1 : toks ≠ [])
    (h2 : ∀ t ∈ toks, t ≠ [] ∧ suffixApplyL t = t ∧
      ∀ c ∈ t, (isUpperChar c || isDigitChar c) = true)
    (hs : unitSearch none (joinSp toks) = none) :
    normCore (joinSp toks) = joinSp toks := by
  have hchars : ∀ c ∈ joinSp toks, (isUpperChar c || isDigitChar c || isSpaceChar c) = true := by
    intro c hc
    rcases mem_joinSp c toks hc with rfl | ⟨t, ht, hct⟩
    · decide
    · rw [Bool.or_eq_true_iff]
      exact Or.inl ((h2 t ht).2.2 c hct)
  have hpre : normPre (joinSp toks) = joinSp toks := by
    unfold normPre
    rw [map_id_of pyUpperChar _ (fun c hc =>
      pyUpperChar_id c (tokSpace_not_lower c (hchars c hc)))]
    rw [pyStrip_id _ ?hh ?hl]
    · exact replaceHash_id _ (fun c hc => tokSpace_ne_hash c (hchars c hc))
    case hh =>
      intro c hc
      obtain ⟨t, ts, rfl⟩ : ∃ t ts, toks = t :: ts := by
        cases toks with
        | nil => exact absurd rfl h1
        | cons t ts => exact ⟨t, ts, rfl⟩
      rw [head_joinSp t ts (h2 t (List.mem_cons_self _ _)).1] at hc
      have ht1 := (h2 t (List.mem_cons_self _ _)).1
      obtain ⟨c0, t', rfl⟩ : ∃ c0 t', t = c0 :: t' := by
        cases t with
        | nil => exact absurd rfl ht1
        | cons c0 t' => exact ⟨c0, t', rfl⟩
      obtain rfl : c0 = c := by simpa using hc
      exact tok_not_space _ ((h2 _ (List.mem_cons_self _ _)).2.2 _ (List.mem_cons_self _ _))
    case hl =>
      intro c hc
      obtain ⟨c0, hg, t, ht, hct⟩ := getLast_joinSp toks h1 (fun t ht => (h2 t ht).1)
      rw [hg] at hc
      obtain rfl : c0 = c := by simpa using hc
      exact tok_not_space _ ((h2 t ht).2.2 _ hct)
  have hsub : unitScanSub none (joinSp toks) = joinSp toks := unitScanSub_id none _ hs
  have hscrub : (joinSp toks).map scrubChar = joinSp toks :=
    map_id_of _ _ (fun c hc => scrubChar_id c (hchars c hc))
  have hparts : normParts (joinSp toks) = toks := by
    unfold normParts
    rw [hpre, hsub, hscrub]
    exact splitTokens_joinSp toks (fun t ht =>
      ⟨(h2 t ht).1, fun c hc => tok_not_space c ((h2 t ht).2.2 c hc)⟩)
  have hunit : normUnitVal (joinSp toks) = [] := by
    unfold normUnitVal
    rw [hpre, hs]
    rfl
  unfold normCore
  rw [hparts, hunit, if_neg h1]
  rw [map_id_of suffixApplyL toks (fun t ht => (h2 t ht).2.1)]
  simp

theorem normCore_unit_absurd (toks : List (List Char)) (u : List Char)
    (h1 : toks ≠ []) (h3 : ∀ c ∈ u, isUnitValChar c = true) (hu : u ≠ [])
    (hs : unitSearch none (joinSp (toks ++ [unitTok u])) = none)
    (hd : '-' ∉ joinSp (toks ++ [unitTok u])) : False := by
  have hdu : ∀ c ∈ u, c ≠ '-' := by
    intro c hc heq
    subst heq
    exact hd (mem_joinSp_of_mem '-' (unitTok u) _
      (List.mem_append.2 (Or.inr (List.mem_cons_self _ _)))
      (by unfold unitTok; simp [hc]))
  have hsplit : joinSp (toks ++ [unitTok u]) = (joinSp toks ++ [' ']) ++ unitTok u := by
    rw [joinSp_append_single toks (unitTok u) h1]
    simp
  rw [hsplit] at hs
  have htm := unitSearch_none_split (joinSp toks ++ [' ']) none (unitTok u) hs
  rw [List.getLast?_concat] at htm
  simp only [Option.elim] at htm
  rw [tryMatchAt_unitTok u hu h3 hdu] at htm
  simp at htm

/-- C9 (amended): `normalize_address` fixes every one of its outputs that
contains no occurrence of the unit-designator pattern and no hyphen; on such
already-canonical addresses a second normalization returns them unchanged.
(In general the function is not idempotent — see the counterexample.) -/
theorem c9_idempotent_amended (s : String)
    (hs : unitSearch none (normalize_address s).data = none)
    (hd : '-' ∉ (normalize_address s).data) :
    normalize_address (normalize_address s) = normalize_address s := by
  have hdata : (normalize_address s).data = normCore s.data := rfl
  rw [hdata] at hs hd
  suffices hfix : normCore (normCore s.data) = normCore s.data by
    show String.mk (normCore (String.mk (normCore s.data)).data) = String.mk (normCore s.data)
    rw [show (String.mk (normCore s.data)).data = normCore s.data from rfl, hfix]
  rcases normCore_structure s.data with h | ⟨toks, u, h1, h2, h3, h4⟩
  · rw [h]
    rfl
  · rcases h4 with ⟨_, hr⟩ | ⟨hu0, hr⟩
    · rw [hr] at hs ⊢
      exact normCore_fix_of_tokens toks h1 h2 hs
    · rw [hr] at hs hd
      exact (normCore_unit_absurd toks u h1 h3 hu0 hs hd).elim

theorem c9_idempotent_witness :
    unitSearch none (normalize_address "123 Main Street").data = none ∧
    '-' ∉ (normalize_address "123 Main Street").data ∧
    normalize_address (normalize_address "123 Main Street") =
      normalize_address "123 Main Street" :=
  ⟨by decide, by decide, c9_idempotent_amended "123 Main Street" (by decide) (by decide)⟩

/-! ## Claim C10: multiple unit designators -/

theorem unitScanSubF_irrel (fuel1 : Nat) : ∀ (fuel2 : Nat) (p : Option Char) (l : List Char),
    l.length ≤ fuel1 → l.length ≤ fuel2 → unitScanSubF p l fuel1 = unitScanSubF p l fuel2 := by
  induction fuel1 with
  | zero =>
    intro fuel2 p l h1 _
    have hl : l = [] := List.length_eq_zero.1 (by omega)
    subst hl
    cases fuel2 <;> rfl
  | succ fuel1 ih =>
    intro fuel2 p l h1 h2
    cases l with
    | nil => cases fuel2 <;> rfl
    | cons c rest =>
      cases fuel2 with
      | zero => simp at h2
      | succ fuel2 =>
        simp only [unitScanSubF]
        cases hm : tryMatchAt p (c :: rest) with
        | some capn =>
          simp only [hm]
          obtain ⟨_, _, _, hn2⟩ := tryMatchAt_capture p (c :: rest) capn.1 capn.2 (by rw [hm])
          apply ih
          · rw [List.length_drop]; simp at h1; omega
          · rw [List.length_drop]; simp at h2; omega
        | none =>
          simp only [hm]
          congr 1
          exact ih fuel2 (some c) rest (by simpa using h1) (by simpa using h2)

theorem unitScanSub_cons (prev : Option Char) (c : Char) (rest : List Char) :
    unitScanSub prev (c :: rest) =
      match tryMatchAt prev (c :: rest) with
      | some (_, n) => unitScanSub ((c :: rest).get? (n - 1)) (rest.drop (n - 1))
      | none => c :: unitScanSub (some c) rest := by
  show unitScanSubF prev (c :: rest) (rest.length + 1) = _
  simp only [unitScanSubF]
  cases hm : tryMatchAt prev (c :: rest) with
  | some capn =>
    simp only [hm]
    obtain ⟨_, _, _, hn2⟩ := tryMatchAt_capture prev (c :: rest) capn.1 capn.2 (by rw [hm])
    apply unitScanSubF_irrel
    · rw [List.length_drop]; omega
    · exact le_rfl
  | none =>
    simp only [hm]
    rfl

theorem tryMatchAt_single (prev : Option Char) (kw : List Char) (c : Char) (rest : List Char)
    (hkw : matchKeyword (kw ++ ' ' :: c :: ' ' :: rest) = some (kw, ' ' :: c :: ' ' :: rest))
    (hb : boundaryB prev (kw ++ ' ' :: c :: ' ' :: rest).head? = true)
    (hc : (isUpperChar c || isDigitChar c) = true) :
    tryMatchAt prev (kw ++ ' ' :: c :: ' ' :: rest) = some ([c], kw.length + 2) := by
  have hcls : isUnitValChar c = true := by
    unfold isUnitValChar
    rw [Bool.or_eq_true_iff]
    exact Or.inl hc
  have hword : isWordChar c = true := by
    rcases Bool.or_eq_true_iff.1 hc with h | h <;> simp [isWordChar, h]
  have h1 : List.takeWhile isSpaceChar (' ' :: c :: ' ' :: rest) = [' '] := by
    rw [List.takeWhile_cons_of_pos (by decide),
      List.takeWhile_cons_of_neg (by simp [tok_not_space c hc])]
  have h2 : List.dropWhile isSpaceChar (' ' :: c :: ' ' :: rest) = c :: ' ' :: rest := by
    rw [List.dropWhile_cons_of_pos (by decide),
      List.dropWhile_cons_of_neg (by simp [tok_not_space c hc])]
  have h3 : List.takeWhile isUnitValChar (c :: ' ' :: rest) = [c] := by
    rw [List.takeWhile_cons_of_pos hcls, List.takeWhile_cons_of_neg (by decide)]
  have h4 : List.dropWhile isUnitValChar (c :: ' ' :: rest) = ' ' :: rest := by
    rw [List.dropWhile_cons_of_pos hcls, List.dropWhile_cons_of_neg (by decide)]
  have hwo : isWordCharO (some c) = true := hword
  have hspw : isWordCharO (some ' ') = false := by decide
  have hbnd : boundaryB (some c) (some ' ') = true := by
    unfold boundaryB
    rw [hwo, hspw]
    rfl
  have hend : endBacktrack [c] (some ' ') = some 1 := by
    show (if boundaryB ([c].get? 0)
        (if 0 + 1 = [c].length then some ' ' else [c].get? (0 + 1)) = true
      then some (0 + 1) else btk [c] (some ' ') 0) = some 1
    rw [show ([c].get? 0) = some c from rfl,
      show (if 0 + 1 = [c].length then some ' ' else [c].get? (0 + 1)) = some ' ' from
        if_pos (by simp),
      hbnd]
    rfl
  unfold tryMatchAt
  simp only [hkw]
  rw [if_pos hb]
  simp only [h1, h2, h3, h4, List.head?_cons, hend]
  simp

/-- C10: when an address contains two unit designators — here `APT x` followed
by `UNIT y`, with single uppercase-letter-or-digit values — `normalize_address`
removes *both* designator occurrences from the working string but re-appends
only the value of the *first* one, so the later designator's value is dropped
from the normalized form. -/
theorem c10_multi_designator (x y : Char)
    (hx : isUpperChar x = true ∨ isDigitChar x = true)
    (hy : isUpperChar y = true ∨ isDigitChar y = true) :
    normalize_address (String.mk
      ('A' :: 'P' :: 'T' :: ' ' :: x :: ' ' :: 'U' :: 'N' :: 'I' :: 'T' :: ' ' :: y ::
        ' ' :: 'M' :: 'A' :: 'I' :: 'N' :: ' ' :: 'S' :: 'T' :: [])) =
    String.mk ('M' :: 'A' :: 'I' :: 'N' :: ' ' :: 'S' :: 'T' :: ' ' ::
      'U' :: 'N' :: 'I' :: 'T' :: ' ' :: x :: []) := by
  have hx' : (isUpperChar x || isDigitChar x) = true := by
    rw [Bool.or_eq_true_iff]; exact hx
  have hy' : (isUpperChar y || isDigitChar y) = true := by
    rw [Bool.or_eq_true_iff]; exact hy
  have htm1 : tryMatchAt none
      ('A' :: 'P' :: 'T' :: ' ' :: x :: ' ' :: 'U' :: 'N' :: 'I' :: 'T' :: ' ' :: y ::
        ' ' :: 'M' :: 'A' :: 'I' :: 'N' :: ' ' :: 'S' :: 'T' :: []) = some ([x], 5) := by
    exact tryMatchAt_single none ['A', 'P', 'T'] x
      ('U' :: 'N' :: 'I' :: 'T' :: ' ' :: y :: ' ' :: 'M' :: 'A' :: 'I' :: 'N' :: ' ' ::
        'S' :: 'T' :: []) rfl rfl hx'
  have htm2 : tryMatchAt (some ' ')
      ('U' :: 'N' :: 'I' :: 'T' :: ' ' :: y :: ' ' :: 'M' :: 'A' :: 'I' :: 'N' :: ' ' ::
        'S' :: 'T' :: []) = some ([y], 6) := by
    exact tryMatchAt_single (some ' ') ['U', 'N', 'I', 'T'] y
      ('M' :: 'A' :: 'I' :: 'N' :: ' ' :: 'S' :: 'T' :: []) rfl rfl hy'
  have hpre : normPre
      ('A' :: 'P' :: 'T' :: ' ' :: x :: ' ' :: 'U' :: 'N' :: 'I' :: 'T' :: ' ' :: y ::
        ' ' :: 'M' :: 'A' :: 'I' :: 'N' :: ' ' :: 'S' :: 'T' :: []) =
      ('A' :: 'P' :: 'T' :: ' ' :: x :: ' ' :: 'U' :: 'N' :: 'I' :: 'T' :: ' ' :: y ::
        ' ' :: 'M' :: 'A' :: 'I' :: 'N' :: ' ' :: 'S' :: 'T' :: []) := by
    unfold normPre
    rw [map_id_of pyUpperChar _ ?hmap]
    · rw [pyStrip_id _ ?hh ?hl]
      · refine replaceHash_id _ (fun c hc => ?_)
        simp only [List.mem_cons, List.not_mem_nil, or_false] at hc
        rcases hc with rfl | rfl | rfl | rfl | rfl | rfl | rfl | rfl | rfl | rfl | rfl |
          rfl | rfl | rfl | rfl | rfl | rfl | rfl | rfl | rfl
        all_goals first
          | decide
          | exact tokSpace_ne_hash _ (by rw [Bool.or_eq_true_iff]; exact Or.inl hx')
          | exact tokSpace_ne_hash _ (by rw [Bool.or_eq_true_iff]; exact Or.inl hy')
      case hh =>
        intro c hc
        obtain rfl : 'A' = c := by simpa using hc
        decide
      case hl =>
        intro c hc
        obtain rfl : 'T' = c := by simpa using hc
        decide
    case hmap =>
      intro c hc
      simp only [List.mem_cons, List.not_mem_nil, or_false] at hc
      rcases hc with rfl | rfl | rfl | rfl | rfl | rfl | rfl | rfl | rfl | rfl | rfl |
        rfl | rfl | rfl | rfl | rfl | rfl | rfl | rfl | rfl
      all_goals first
        | decide
        | exact pyUpperChar_id _ (tokSpace_not_lower _ (by rw [Bool.or_eq_true_iff]; exact Or.inl hx'))
        | exact pyUpperChar_id _ (tokSpace_not_lower _ (by rw [Bool.or_eq_true_iff]; exact Or.inl hy'))
  have hsub : unitScanSub none
      ('A' :: 'P' :: 'T' :: ' ' :: x :: ' ' :: 'U' :: 'N' :: 'I' :: 'T' :: ' ' :: y ::
        ' ' :: 'M' :: 'A' :: 'I' :: 'N' :: ' ' :: 'S' :: 'T' :: []) =
      (' ' :: ' ' :: 'M' :: 'A' :: 'I' :: 'N' :: ' ' :: 'S' :: 'T' :: []) := by
    rw [unitScanSub_cons]
    simp only [htm1]
    show unitScanSub (some x)
      (' ' :: 'U' :: 'N' :: 'I' :: 'T' :: ' ' :: y :: ' ' :: 'M' :: 'A' :: 'I' :: 'N' ::
        ' ' :: 'S' :: 'T' :: []) = _
    rw [unitScanSub_cons]
    simp only [show tryMatchAt (some x)
      (' ' :: 'U' :: 'N' :: 'I' :: 'T' :: ' ' :: y :: ' ' :: 'M' :: 'A' :: 'I' :: 'N' ::
        ' ' :: 'S' :: 'T' :: []) = none from rfl]
    congr 1
    rw [unitScanSub_cons]
    simp only [htm2]
    show unitScanSub (some y) (' ' :: 'M' :: 'A' :: 'I' :: 'N' :: ' ' :: 'S' :: 'T' :: []) = _
    exact unitScanSub_id (some y) _ rfl
  have hsearch : unitSearch none
      ('A' :: 'P' :: 'T' :: ' ' :: x :: ' ' :: 'U' :: 'N' :: 'I' :: 'T' :: ' ' :: y ::
        ' ' :: 'M' :: 'A' :: 'I' :: 'N' :: ' ' :: 'S' :: 'T' :: []) = some [x] := by
    unfold unitSearch
    simp only [htm1]
  have hparts : normParts
      ('A' :: 'P' :: 'T' :: ' ' :: x :: ' ' :: 'U' :: 'N' :: 'I' :: 'T' :: ' ' :: y ::
        ' ' :: 'M' :: 'A' :: 'I' :: 'N' :: ' ' :: 'S' :: 'T' :: []) =
      [['M', 'A', 'I', 'N'], ['S', 'T']] := by
    unfold normParts
    rw [hpre, hsub]
    rfl
  have hunit : normUnitVal
      ('A' :: 'P' :: 'T' :: ' ' :: x :: ' ' :: 'U' :: 'N' :: 'I' :: 'T' :: ' ' :: y ::
        ' ' :: 'M' :: 'A' :: 'I' :: 'N' :: ' ' :: 'S' :: 'T' :: []) = [x] := by
    unfold normUnitVal
    rw [hpre, hsearch]
    rfl
  show String.mk (normCore _) = _
  unfold normCore
  rw [hparts, hunit]
  rfl

theorem c10_multi_designator_witness :
    normalize_address "APT 2 UNIT 3 MAIN ST" = "MAIN ST UNIT 2" :=
  c10_multi_designator '2' '3' (Or.inr (by decide)) (Or.inr (by decide))
